import Mathlib

/-!
Verification of the wurdo creative-word-transformation scoring engine.

This file gives a shallow embedding, in Lean 4, of the parts of the
repository that the checked claims are about:

* the probability-tree data model, builder and lookup engine
  (src/ml_engine/models/probability_tree.py),
* the trie-based word-transformation engine and the rhyme categoriser
  (src/ml_engine/models/efficient_word_engine.py),
* the base-score table of the scoring service
  (src/ml_engine/services/enhanced_scoring_service.py),
* the layered probability-tree storage service
  (src/ml_engine/services/optimized_storage_service.py).

Python floats are modelled as exact rationals; Python dicts that are built
by insertion (and whose keys are unique by construction) are modelled as
association lists in insertion order; the language model is modelled as a
pure oracle from context strings to probability vectors, exactly as the
spec's Model Adapter contract requires.
-/

set_option maxHeartbeats 1600000

namespace Wurdo

/-! ## Token sequences -/

abbrev Tok := Nat
abbrev Seq := List Tok

/-! ## Probability-tree data model

Mirrors the dataclasses of probability_tree.py: a ProbabilityNode has
val (the valid token sequences; the sentinel for an empty category is the
one-element list holding Python None, modelled as none), prb (a sparse map
token -> terminal probability or child record; Python Union of float and
ChildNode is modelled as a pair of the probability with an optional
(remaining_sequences, child) record), and dat (the recovery metadata). -/

structure PMeta where
  org_max : ℚ
  val_prb_sum : ℚ
  max_dep : Nat
deriving Repr, DecidableEq

/-- Sparse-map entry for one token: the stored probability together with,
for a ChildNode, the remaining sequences and the child node. A terminal
entry has no child record. -/
inductive ProbNode : Type where
  | mk : List (Option Seq) → List (Tok × (ℚ × Option (List Seq × ProbNode))) → PMeta → ProbNode

abbrev PrbEntry := ℚ × Option (List Seq × ProbNode)

def ProbNode.val : ProbNode → List (Option Seq)
  | .mk v _ _ => v

def ProbNode.prb : ProbNode → List (Tok × PrbEntry)
  | .mk _ p _ => p

def ProbNode.dat : ProbNode → PMeta
  | .mk _ _ d => d

/-- Membership test and lookup in the sparse map, i.e. Python
`token_id in node.prb` followed by `node.prb[token_id]`. The keys of the
map are unique by construction (one per first-token group), so the first
match is the only match. -/
def ProbNode.find (n : ProbNode) (t : Tok) : Option PrbEntry :=
  match n.prb.find? (fun e => e.1 = t) with
  | none => none
  | some e => some e.2

/-- The word-level tree of probability_tree.py: frequency plus one node per
transformation category (ana; olo.ola/olr/olx; rhy.prf/rch/sln). -/
structure WordTree where
  frq : Nat
  ana : ProbNode
  ola : ProbNode
  olr : ProbNode
  olx : ProbNode
  prf : ProbNode
  rch : ProbNode
  sln : ProbNode

/-- Category selector: the (category, subcategory) pairs that the scoring
service passes to the lookup engine. All seven valid combinations. -/
inductive TreeCat : Type where
  | ana
  | ola
  | olr
  | olx
  | prf
  | rch
  | sln
deriving Repr, DecidableEq

def WordTree.node (tree : WordTree) : TreeCat → ProbNode
  | .ana => tree.ana
  | .ola => tree.ola
  | .olr => tree.olr
  | .olx => tree.olx
  | .prf => tree.prf
  | .rch => tree.rch
  | .sln => tree.sln

/-! ## Lookup engine (ProbabilityTreeLookup) -/

/-- The traversal loop of _traverse_probability_node: walk the tokens,
multiplying the stored probability at each step; a missing token returns
0; a terminal entry multiplies and stops (remaining tokens are ignored);
running out of tokens returns the accumulated product. -/
def traverseFrom (total : ℚ) : ProbNode → Seq → ℚ
  | _, [] => total
  | n, t :: rest =>
    match n.find t with
    | none => 0
    | some (p, none) => total * p
    | some (p, some (_, child)) => traverseFrom (total * p) child rest

/-- ProbabilityTreeLookup._traverse_probability_node: empty sequences have
probability 1; otherwise run the traversal loop with accumulator 1. -/
def traverseProbabilityNode (n : ProbNode) (seq : Seq) : ℚ :=
  match seq with
  | [] => 1
  | _ => traverseFrom 1 n seq

/-- ProbabilityTreeLookup.get_sequence_probability. -/
def getSequenceProbability (tree : WordTree) (cat : TreeCat) (seq : Seq) : ℚ :=
  traverseProbabilityNode (tree.node cat) seq

/-- The renormalisation-factor loop of get_creativity_score: walk the
tokens, multiplying val_prb_sum of each visited node; a missing token
aborts (the Python code returns 0.0 for the whole call); a terminal entry
multiplies and stops. -/
def renormFactorFrom (acc : ℚ) : ProbNode → Seq → Option ℚ
  | _, [] => some acc
  | n, t :: rest =>
    match n.find t with
    | none => none
    | some (_, none) => some (acc * n.dat.val_prb_sum)
    | some (_, some (_, child)) =>
      renormFactorFrom (acc * n.dat.val_prb_sum) child rest

/-- ProbabilityTreeLookup.get_creativity_score: zero sequence probability
returns 0; a missing token in the renormalisation walk returns 0; else
return sequence_probability times the renormalisation factor, divided by
the root node's org_max when that is positive (0 otherwise). -/
def getCreativityScore (tree : WordTree) (cat : TreeCat) (seq : Seq) : ℚ :=
  let sp := getSequenceProbability tree cat seq
  if sp = 0 then 0
  else
    let root := tree.node cat
    match renormFactorFrom 1 root seq with
    | none => 0
    | some r =>
      if root.dat.org_max > 0 then sp * r / root.dat.org_max else 0

/-! ## Tree builder (ProbabilityTreeBuilder)

The language model is a pure oracle from a context string to the full
probability vector, matching get_probability_vector of the scorer (the
spec's Model Adapter purity contract makes the per-build vector cache of
_build_probability_node semantically transparent, so the cache is not
modelled separately; the contexts looked up are recorded in a trace). -/

abbrev Model := String → List ℚ

/-- _group_sequences_by_first_token, characterised: the group keys are the
first tokens in order of first occurrence (Python dict insertion order),
and the group of key t holds the tails of the sequences starting with t,
in input order. Empty sequences are skipped. -/
def firstsAux : List Seq → List Tok → List Tok
  | [], _ => []
  | s :: rest, seen =>
    match s with
    | [] => firstsAux rest seen
    | a :: _ =>
      if a ∈ seen then firstsAux rest seen else a :: firstsAux rest (a :: seen)

def tailsFor (seqs : List Seq) (t : Tok) : List Seq :=
  (seqs.filter fun s => s.head? = some t).map List.tail

def groupByFirstToken (seqs : List Seq) : List (Tok × List Seq) :=
  (firstsAux seqs []).map fun t => (t, tailsFor seqs t)

/-- Total length of a sequence list; the termination measure of the
builder's recursion. -/
def totalLen (seqs : List Seq) : Nat :=
  (seqs.map List.length).sum

theorem mem_firstsAux_head {seqs : List Seq} {seen : List Tok} {t : Tok}
    (h : t ∈ firstsAux seqs seen) : ∃ r, (t :: r) ∈ seqs := by
  induction seqs generalizing seen with
  | nil => simp [firstsAux] at h
  | cons s rest ih =>
    match s with
    | [] =>
      simp only [firstsAux] at h
      obtain ⟨r, hr⟩ := ih h
      exact ⟨r, List.mem_cons_of_mem _ hr⟩
    | a :: as =>
      simp only [firstsAux] at h
      by_cases ha : a ∈ seen
      · simp only [if_pos ha] at h
        obtain ⟨r, hr⟩ := ih h
        exact ⟨r, List.mem_cons_of_mem _ hr⟩
      · simp only [if_neg ha, List.mem_cons] at h
        rcases h with h | h
        · exact ⟨as, by simp [h]⟩
        · obtain ⟨r, hr⟩ := ih h
          exact ⟨r, List.mem_cons_of_mem _ hr⟩

theorem totalLen_tailsFor_le (seqs : List Seq) (t : Tok) :
    totalLen (tailsFor seqs t) ≤ totalLen seqs := by
  induction seqs with
  | nil => simp [tailsFor, totalLen]
  | cons s rest ih =>
    simp only [tailsFor, totalLen, List.filter_cons] at ih ⊢
    by_cases hs : s.head? = some t
    · rw [if_pos (by simp [hs])]
      simp only [List.map_cons, List.sum_cons]
      have hts : s.tail.length ≤ s.length := by cases s <;> simp
      omega
    · rw [if_neg (by simp [hs])]
      simp only [List.map_cons, List.sum_cons]
      omega

theorem totalLen_tailsFor_lt {seqs : List Seq} {t : Tok} {r : Seq}
    (h : (t :: r) ∈ seqs) : totalLen (tailsFor seqs t) < totalLen seqs := by
  induction seqs with
  | nil => simp at h
  | cons s rest ih =>
    have hle := totalLen_tailsFor_le rest t
    simp only [tailsFor, totalLen, List.filter_cons] at hle ⊢
    rcases List.mem_cons.mp h with h | h
    · subst h
      rw [if_pos (by simp)]
      simp only [List.map_cons, List.sum_cons, List.tail_cons,
        List.length_cons]
      omega
    · have hlt := ih h
      simp only [tailsFor, totalLen] at hlt
      by_cases hs : s.head? = some t
      · rw [if_pos (by simp [hs])]
        simp only [List.map_cons, List.sum_cons]
        have hts : s.tail.length ≤ s.length := by cases s <;> simp
        omega
      · rw [if_neg (by simp [hs])]
        simp only [List.map_cons, List.sum_cons]
        omega

theorem totalLen_lt_of_mem_group {seqs : List Seq} {g : Tok × List Seq}
    (hg : g ∈ groupByFirstToken seqs) : totalLen g.2 < totalLen seqs := by
  simp only [groupByFirstToken, List.mem_map] at hg
  obtain ⟨t, ht, rfl⟩ := hg
  obtain ⟨r, hr⟩ := mem_firstsAux_head ht
  exact totalLen_tailsFor_lt hr

/-- The depth-0 context string of _build_probability_node: the prompt is
the f-string built from the start word and the category display name, and
the recursion passes both through unchanged. -/
def fullPrompt (startWord category : String) : String :=
  startWord ++ " is a word that " ++ category ++ " with"

/-- Python max over a nonempty float list, with max([]) replaced by 0.0
as in `max(probabilities) if probabilities else 0.0`. -/
def pyMax : List ℚ → ℚ
  | [] => 0
  | a :: r => r.foldl max a

/-- Python max over a nonempty nat list (max_depth computation). -/
def pyMaxNat : List Nat → Nat
  | [] => 0
  | a :: r => r.foldl max a

/-- The empty-category sentinel node: val is the one-element null-sentinel
list, prb is empty, all metadata zero. No model call is made. -/
def sentinelNode : ProbNode :=
  .mk [none] [] ⟨0, 0, 0⟩

/-- Renormalisation and metadata step of _build_probability_node, given
the raw sparse entries (the paired traces come from the recursive child
builds). The stored probabilities are divided by their sum when that sum
is positive; org_max is the raw vector's max; val_prb_sum is the sum of
the stored probabilities, taken after the renormalisation (the Python
code computes valid_probs from the already-renormalised sparse array);
max_dep is the maximum input sequence length. -/
def mkNodeFromRaw (seqs : List Seq) (probs : List ℚ)
    (raw : List ((Tok × PrbEntry) × List (Nat × String))) : ProbNode :=
  let entries := raw.map Prod.fst
  let total := (entries.map fun e => e.2.1).sum
  let renormed :=
    if 0 < total then
      entries.map fun e => (e.1, (e.2.1 / total, e.2.2))
    else entries
  .mk (seqs.map some) renormed
    ⟨pyMax probs, (renormed.map fun e => e.2.1).sum,
      pyMaxNat (seqs.map List.length)⟩

/-- _build_probability_node, instrumented with a ghost depth counter and a
trace of the (depth, context) pairs whose probability vectors are looked
up. The computation itself never depends on the depth.

Steps, exactly as in the source: empty input returns the sentinel with no
model lookup; otherwise group by first token, look up the probability
vector for the fixed prompt, keep only group tokens that are inside the
vector and have positive probability (building a child recursively when
some tail is non-empty, a terminal entry otherwise), then renormalise and
fill the metadata (mkNodeFromRaw). -/
def buildNodeT (model : Model) (sw cat : String) (seqs : List Seq)
    (depth : Nat) : ProbNode × List (Nat × String) :=
  match seqs with
  | [] => (sentinelNode, [])
  | s0 :: srest =>
    let probs := model (fullPrompt sw cat)
    let groups := groupByFirstToken (s0 :: srest)
    let raw : List ((Tok × PrbEntry) × List (Nat × String)) :=
      groups.attach.filterMap fun g =>
        match probs.get? g.1.1 with
        | none => none
        | some p =>
          if 0 < p then
            if g.1.2.any (fun s => ¬ s.isEmpty) then
              have : totalLen g.1.2 < totalLen (s0 :: srest) :=
                totalLen_lt_of_mem_group g.2
              let r := buildNodeT model sw cat g.1.2 (depth + 1)
              some ((g.1.1, (p, some (g.1.2, r.1))), r.2)
            else
              some ((g.1.1, (p, none)), [])
          else none
    (mkNodeFromRaw (s0 :: srest) probs raw,
      (depth, fullPrompt sw cat) :: (raw.map Prod.snd).flatten)
termination_by totalLen seqs

/-- The seven per-category token-sequence lists handed to
_build_complete_tree (the valid_words dictionary). -/
structure ValidWords where
  ana : List Seq
  ola : List Seq
  olr : List Seq
  olx : List Seq
  prf : List Seq
  rch : List Seq
  sln : List Seq

def ValidWords.seqs (vw : ValidWords) : TreeCat → List Seq
  | .ana => vw.ana
  | .ola => vw.ola
  | .olr => vw.olr
  | .olx => vw.olx
  | .prf => vw.prf
  | .rch => vw.rch
  | .sln => vw.sln

/-- The category display names used inside the build prompts
(_build_complete_tree passes these strings as the category argument). -/
def TreeCat.display : TreeCat → String
  | .ana => "anagram"
  | .ola => "one-letter-added"
  | .olr => "one-letter-removed"
  | .olx => "one-letter-changed"
  | .prf => "perfect-rhyme"
  | .rch => "rich-rhyme"
  | .sln => "slant-rhyme"

/-- _build_complete_tree: one node per category (frequency is the
placeholder constant 50 of _get_word_frequency). -/
def buildCompleteTree (model : Model) (sw : String) (vw : ValidWords) :
    WordTree where
  frq := 50
  ana := (buildNodeT model sw TreeCat.ana.display vw.ana 0).1
  ola := (buildNodeT model sw TreeCat.ola.display vw.ola 0).1
  olr := (buildNodeT model sw TreeCat.olr.display vw.olr 0).1
  olx := (buildNodeT model sw TreeCat.olx.display vw.olx 0).1
  prf := (buildNodeT model sw TreeCat.prf.display vw.prf 0).1
  rch := (buildNodeT model sw TreeCat.rch.display vw.rch 0).1
  sln := (buildNodeT model sw TreeCat.sln.display vw.sln 0).1

/-! ## Structural facts about built nodes -/

/-- The stored probabilities of a node, in sparse-map order. -/
def nodeProbs (n : ProbNode) : List ℚ := n.prb.map fun e => e.2.1

/-- The child nodes reachable in one step from a node. -/
def childrenOf (n : ProbNode) : List ProbNode :=
  n.prb.filterMap fun e => e.2.2.map Prod.snd

/-- Well-formedness of a whole subtree: at every node with a non-empty
sparse map the stored probabilities sum to exactly 1 and each lies in
(0, 1]. -/
inductive SubtreeWF : ProbNode → Prop where
  | intro : ∀ n : ProbNode,
      (n.prb ≠ [] → (nodeProbs n).sum = 1 ∧ ∀ p ∈ nodeProbs n, 0 < p ∧ p ≤ 1) →
      (∀ c ∈ childrenOf n, SubtreeWF c) → SubtreeWF n

theorem SubtreeWF.here {n : ProbNode} (h : SubtreeWF n) :
    n.prb ≠ [] → (nodeProbs n).sum = 1 ∧ ∀ p ∈ nodeProbs n, 0 < p ∧ p ≤ 1 := by
  cases h with
  | intro n h1 h2 => exact h1

theorem SubtreeWF.child {n : ProbNode} (h : SubtreeWF n) :
    ∀ c ∈ childrenOf n, SubtreeWF c := by
  cases h with
  | intro n h1 h2 => exact h2

theorem list_sum_map_div (l : List (Tok × PrbEntry)) (c : ℚ) :
    (l.map fun e => e.2.1 / c).sum = (l.map fun e => e.2.1).sum / c := by
  induction l with
  | nil => simp
  | cons x rest ih => simp [ih, add_div]

theorem list_sum_pos {l : List ℚ} (hl : ∀ p ∈ l, 0 < p) (hne : l ≠ []) :
    0 < l.sum := by
  match l with
  | [] => exact absurd rfl hne
  | x :: rest =>
    simp only [List.sum_cons]
    have hx := hl x (by simp)
    have hrest : 0 ≤ rest.sum :=
      List.sum_nonneg fun p hp => le_of_lt (hl p (by simp [hp]))
    linarith

theorem list_single_le_sum {l : List ℚ} (hl : ∀ p ∈ l, 0 < p) {a : ℚ}
    (ha : a ∈ l) : a ≤ l.sum := by
  induction l with
  | nil => simp at ha
  | cons x rest ih =>
    simp only [List.sum_cons]
    rcases List.mem_cons.mp ha with h | h
    · subst h
      have : 0 ≤ rest.sum :=
        List.sum_nonneg fun p hp => le_of_lt (hl p (by simp [hp]))
      linarith
    · have := ih (fun p hp => hl p (by simp [hp])) h
      have hx := hl x (by simp)
      linarith

theorem renorm_map_sum (E : List (Tok × PrbEntry)) (S : ℚ) :
    ((E.map fun e => (e.1, (e.2.1 / S, e.2.2))).map fun e => e.2.1).sum =
      (E.map fun e => e.2.1).sum / S := by
  induction E with
  | nil => simp
  | cons x rest ih =>
    simp only [List.map_cons, List.sum_cons]
    rw [ih, add_div]

/-- Entries-level normalisation: renormalising a list of positive
probabilities by their sum yields probabilities in (0, 1] summing to 1. -/
theorem renormEntries_spec (E : List (Tok × PrbEntry))
    (hpos : ∀ e ∈ E, 0 < e.2.1) (hne : E ≠ []) :
    (((if 0 < (E.map fun e => e.2.1).sum then
        E.map fun e => (e.1, (e.2.1 / (E.map fun e => e.2.1).sum, e.2.2))
      else E).map fun e => e.2.1).sum = 1 ∧
      ∀ p ∈ (if 0 < (E.map fun e => e.2.1).sum then
        E.map fun e => (e.1, (e.2.1 / (E.map fun e => e.2.1).sum, e.2.2))
      else E).map fun e => e.2.1, 0 < p ∧ p ≤ 1) := by
  have hallpos : ∀ p ∈ E.map fun e => e.2.1, 0 < p := by
    intro p hp
    obtain ⟨e, he, rfl⟩ := List.mem_map.mp hp
    exact hpos e he
  have hEne : (E.map fun e => e.2.1) ≠ [] := by simp [hne]
  have htot : 0 < (E.map fun e => e.2.1).sum := list_sum_pos hallpos hEne
  rw [if_pos htot]
  constructor
  · rw [renorm_map_sum]
    exact div_self (ne_of_gt htot)
  · intro p hp
    obtain ⟨e2, he2, rfl⟩ := List.mem_map.mp hp
    obtain ⟨e, he, rfl⟩ := List.mem_map.mp he2
    have hle := list_single_le_sum hallpos
      (List.mem_map.mpr ⟨e, he, rfl⟩)
    exact ⟨div_pos (hpos e he) htot, (div_le_one htot).mpr hle⟩

/-- Normalisation property of mkNodeFromRaw: when every raw probability is
positive, the stored probabilities sum to 1 for a non-empty sparse map,
each lies in (0, 1], and the recorded val_prb_sum is exactly the
post-renormalisation sum (hence 0 for an empty map). -/
theorem mkNodeFromRaw_normalized (seqs : List Seq) (probs : List ℚ)
    (raw : List ((Tok × PrbEntry) × List (Nat × String)))
    (hpos : ∀ x ∈ raw, 0 < x.1.2.1) :
    ((mkNodeFromRaw seqs probs raw).prb ≠ [] →
        (nodeProbs (mkNodeFromRaw seqs probs raw)).sum = 1 ∧
        ∀ p ∈ nodeProbs (mkNodeFromRaw seqs probs raw), 0 < p ∧ p ≤ 1) ∧
      (mkNodeFromRaw seqs probs raw).dat.val_prb_sum =
        (nodeProbs (mkNodeFromRaw seqs probs raw)).sum ∧
      ((mkNodeFromRaw seqs probs raw).prb = [] →
        (mkNodeFromRaw seqs probs raw).dat.val_prb_sum = 0) := by
  have hpose : ∀ e ∈ raw.map Prod.fst, 0 < e.2.1 := by
    intro e he
    obtain ⟨x, hx, rfl⟩ := List.mem_map.mp he
    exact hpos x hx
  refine ⟨?_, ?_, ?_⟩
  · intro hne
    have hrawne : raw.map Prod.fst ≠ [] := by
      intro h
      apply hne
      simp only [mkNodeFromRaw, ProbNode.prb, h]
      simp
    have hspec := renormEntries_spec (raw.map Prod.fst) hpose hrawne
    simpa only [mkNodeFromRaw, nodeProbs, ProbNode.prb] using hspec
  · simp [mkNodeFromRaw, nodeProbs, ProbNode.prb, ProbNode.dat]
  · intro hempty
    have hsum0 : (nodeProbs (mkNodeFromRaw seqs probs raw)).sum = 0 := by
      simp [nodeProbs, hempty]
    have hval : (mkNodeFromRaw seqs probs raw).dat.val_prb_sum =
        (nodeProbs (mkNodeFromRaw seqs probs raw)).sum := by
      simp [mkNodeFromRaw, nodeProbs, ProbNode.prb, ProbNode.dat]
    rw [hval, hsum0]

/-- The sparse entries of mkNodeFromRaw keep their child component. -/
theorem childrenOf_mkNodeFromRaw (seqs : List Seq) (probs : List ℚ)
    (raw : List ((Tok × PrbEntry) × List (Nat × String))) :
    ∀ c ∈ childrenOf (mkNodeFromRaw seqs probs raw),
      ∃ x ∈ raw, ∃ rem, x.1.2.2 = some (rem, c) := by
  intro c hc
  simp only [childrenOf, mkNodeFromRaw, ProbNode.prb] at hc
  by_cases htot : 0 < ((raw.map Prod.fst).map fun e => e.2.1).sum
  · simp only [if_pos htot, List.filterMap_map, List.mem_filterMap] at hc
    obtain ⟨x, hx, hfx⟩ := hc
    simp only [Function.comp] at hfx
    match hx2 : x.1.2.2 with
    | none => simp [hx2] at hfx
    | some (rem, child) =>
      simp only [hx2, Option.map_some] at hfx
      exact ⟨x, hx, rem, by simp [hx2, ← Option.some_inj.mp hfx]⟩
  · simp only [if_neg htot, List.filterMap_map, List.mem_filterMap] at hc
    obtain ⟨x, hx, hfx⟩ := hc
    simp only [Function.comp] at hfx
    match hx2 : x.1.2.2 with
    | none => simp [hx2] at hfx
    | some (rem, child) =>
      simp only [hx2, Option.map_some] at hfx
      exact ⟨x, hx, rem, by simp [hx2, ← Option.some_inj.mp hfx]⟩

theorem buildNodeT_nil (m : Model) (sw cat : String) (d : Nat) :
    buildNodeT m sw cat [] d = (sentinelNode, []) := by
  simp [buildNodeT]

/-- Unfolding of the builder on a non-empty input: the resulting node is
mkNodeFromRaw applied to a raw entry list each element of which has a
positive probability and, when it is a branch, a child built recursively
from the tails of one of the first-token groups; the trace starts with
this depth's context. -/
theorem buildNodeT_cons_spec (m : Model) (sw cat : String) (s0 : Seq)
    (srest : List Seq) (d : Nat) :
    ∃ raw : List ((Tok × PrbEntry) × List (Nat × String)),
      (∀ x ∈ raw, 0 < x.1.2.1 ∧
        ((x.1.2.2 = none ∧ x.2 = []) ∨
          ∃ tails, (x.1.1, tails) ∈ groupByFirstToken (s0 :: srest) ∧
          x.1.2.2 = some (tails, (buildNodeT m sw cat tails (d + 1)).1) ∧
          x.2 = (buildNodeT m sw cat tails (d + 1)).2)) ∧
      (buildNodeT m sw cat (s0 :: srest) d).1 =
        mkNodeFromRaw (s0 :: srest) (m (fullPrompt sw cat)) raw ∧
      (buildNodeT m sw cat (s0 :: srest) d).2 =
        (d, fullPrompt sw cat) :: (raw.map Prod.snd).flatten := by
  refine ⟨(groupByFirstToken (s0 :: srest)).attach.filterMap fun g =>
    match (m (fullPrompt sw cat)).get? g.1.1 with
    | none => none
    | some p =>
      if 0 < p then
        if g.1.2.any (fun s => ¬ s.isEmpty) then
          some ((g.1.1, (p, some (g.1.2,
            (buildNodeT m sw cat g.1.2 (d + 1)).1))),
            (buildNodeT m sw cat g.1.2 (d + 1)).2)
        else
          some ((g.1.1, (p, none)), [])
      else none, ?_, ?_, ?_⟩
  · intro x hx
    simp only [List.mem_filterMap] at hx
    obtain ⟨g, hg, hfg⟩ := hx
    rcases hO : (m (fullPrompt sw cat)).get? (↑g : Tok × List Seq).1
      with _ | p
    · simp only [hO] at hfg
      exact absurd hfg (by simp)
    · simp only [hO] at hfg
      by_cases hp : 0 < p
      · rw [if_pos hp] at hfg
        by_cases hany : (↑g : Tok × List Seq).2.any fun s => ¬ s.isEmpty
        · rw [if_pos hany] at hfg
          have hx2 := Option.some.inj hfg
          rw [← hx2]
          refine ⟨hp, Or.inr ⟨(↑g : Tok × List Seq).2, ?_, rfl, rfl⟩⟩
          have := g.2
          simpa using this
        · rw [if_neg hany] at hfg
          have hx2 := Option.some.inj hfg
          rw [← hx2]
          exact ⟨hp, Or.inl ⟨rfl, rfl⟩⟩
      · rw [if_neg hp] at hfg
        exact absurd hfg (by simp)
  · simp only [buildNodeT]
  · simp only [buildNodeT]

/-- Every node produced by the builder is subtree-well-formed. -/
theorem buildNodeT_wf (m : Model) (sw cat : String) :
    ∀ (N : Nat) (seqs : List Seq), totalLen seqs ≤ N → ∀ d,
      SubtreeWF (buildNodeT m sw cat seqs d).1 := by
  intro N
  induction N using Nat.strong_induction_on with
  | _ N ih =>
    intro seqs hN d
    match seqs with
    | [] =>
      rw [buildNodeT_nil]
      refine SubtreeWF.intro _ ?_ ?_
      · intro h
        simp [sentinelNode, ProbNode.prb] at h
      · intro c hc
        simp [childrenOf, sentinelNode, ProbNode.prb] at hc
    | s0 :: srest =>
      obtain ⟨raw, hraw, hnode, -⟩ := buildNodeT_cons_spec m sw cat s0 srest d
      rw [hnode]
      have hpos : ∀ x ∈ raw, 0 < x.1.2.1 := fun x hx => (hraw x hx).1
      obtain ⟨hnorm, -, -⟩ :=
        mkNodeFromRaw_normalized (s0 :: srest) (m (fullPrompt sw cat)) raw hpos
      refine SubtreeWF.intro _ hnorm ?_
      intro c hc
      obtain ⟨x, hx, rem, hxc⟩ :=
        childrenOf_mkNodeFromRaw (s0 :: srest) (m (fullPrompt sw cat)) raw c hc
      rcases (hraw x hx).2 with ⟨hnone, -⟩ | ⟨tails, hg, hsome, -⟩
      · rw [hnone] at hxc
        exact absurd hxc (by simp)
      · rw [hsome] at hxc
        have hcx : c = (buildNodeT m sw cat tails (d + 1)).1 := by
          have := Option.some_inj.mp hxc
          exact (congrArg Prod.snd this).symm
        rw [hcx]
        have hlt : totalLen tails < totalLen (s0 :: srest) :=
          totalLen_lt_of_mem_group (g := (x.1.1, tails)) hg
        have hltN : totalLen tails < N := lt_of_lt_of_le hlt hN
        exact ih (totalLen tails) hltN tails le_rfl (d + 1)

/-! ## Claim-facing specification functions -/

/-- Spec-side description of a walk that consumes the whole sequence and
stops at a branch (non-terminal) entry: the sequence is then strictly a
prefix of the stored sequences. -/
def endsAtBranch (n : ProbNode) : Seq → Bool
  | [] => false
  | t :: rest =>
    match n.find t with
    | some (_, some (_, c)) => if rest.isEmpty then true else endsAtBranch c rest
    | _ => false

/-- Spec-side list of the stored probabilities along a walk (stopping at a
terminal entry, failing on a missing token). -/
def pathProbs (n : ProbNode) : Seq → Option (List ℚ)
  | [] => some []
  | t :: rest =>
    match n.find t with
    | none => none
    | some (p, none) => some [p]
    | some (p, some (_, c)) => (pathProbs c rest).map fun ps => p :: ps

/-- Spec-side list of the nodes visited by the creativity walk (the node
at each consumed token position, stopping at a terminal entry). -/
def visitedNodes (n : ProbNode) : Seq → List ProbNode
  | [] => []
  | t :: rest =>
    n :: (match n.find t with
      | some (_, some (_, c)) => visitedNodes c rest
      | _ => [])

/-- Spec-side sum of the raw model probabilities over the restricted
valid token set at a prefix (the first-token grouping keys; tokens out of
the vector's range contribute 0, as the code skips them). -/
def rawValidSum (probs : List ℚ) (seqs : List Seq) : ℚ :=
  ((groupByFirstToken seqs).map fun g => (probs.get? g.1).getD 0).sum

/-- A property holding at every node of a subtree. -/
inductive EveryNode (P : ProbNode → Prop) : ProbNode → Prop where
  | intro : ∀ n, P n → (∀ c ∈ childrenOf n, EveryNode P c) → EveryNode P n

/-! ## General lemmas used by several claims -/

theorem find_mem_prb {n : ProbNode} {t : Tok} {e : PrbEntry}
    (h : n.find t = some e) : (t, e) ∈ n.prb := by
  unfold ProbNode.find at h
  rcases hf : n.prb.find? fun x => x.1 = t with _ | x
  · rw [hf] at h
    exact absurd h (by simp)
  · rw [hf] at h
    have hmem := List.mem_of_find?_eq_some hf
    have hkey : x.1 = t := by
      have := List.find?_some hf
      simpa using this
    have he : x.2 = e := Option.some.inj h
    rw [← hkey, ← he]
    exact hmem

theorem prob_mem_nodeProbs {n : ProbNode} {t : Tok} {e : PrbEntry}
    (h : (t, e) ∈ n.prb) : e.1 ∈ nodeProbs n := by
  simp only [nodeProbs, List.mem_map]
  exact ⟨(t, e), h, rfl⟩

theorem child_mem_childrenOf {n : ProbNode} {t : Tok} {p : ℚ}
    {rem : List Seq} {c : ProbNode}
    (h : (t, (p, some (rem, c))) ∈ n.prb) : c ∈ childrenOf n := by
  simp only [childrenOf, List.mem_filterMap]
  exact ⟨(t, (p, some (rem, c))), h, rfl⟩

/-- In a well-formed subtree every probability along a successful walk is
positive. -/
theorem pathProbs_pos {n : ProbNode} (hwf : SubtreeWF n) :
    ∀ (seq : Seq) (ps : List ℚ), pathProbs n seq = some ps →
      ∀ p ∈ ps, 0 < p := by
  intro seq
  induction seq generalizing n with
  | nil =>
    intro ps hps p hp
    simp only [pathProbs] at hps
    rw [← Option.some.inj hps] at hp
    simp at hp
  | cons t rest ih =>
    intro ps hps p hp
    rcases hf : n.find t with _ | ⟨q, oc⟩
    · simp only [pathProbs, hf] at hps
      exact absurd hps (by simp)
    · have hmem := find_mem_prb hf
      have hprb : n.prb ≠ [] := by
        intro h0
        rw [h0] at hmem
        simp at hmem
      have hq : 0 < q :=
        ((hwf.here hprb).2 q (prob_mem_nodeProbs hmem)).1
      rcases oc with _ | ⟨rem, c⟩
      · simp only [pathProbs, hf] at hps
        have hps2 : [q] = ps := by simpa using hps
        rw [← hps2] at hp
        simp only [List.mem_singleton] at hp
        rw [hp]
        exact hq
      · simp only [pathProbs, hf] at hps
        rcases hrec : pathProbs c rest with _ | ps'
        · rw [hrec] at hps
          simp at hps
        · rw [hrec] at hps
          have hps2 : q :: ps' = ps := by simpa using hps
          rw [← hps2] at hp
          rcases List.mem_cons.mp hp with h | h
          · rw [h]; exact hq
          · have hcwf : SubtreeWF c :=
              hwf.child c (child_mem_childrenOf hmem)
            exact ih hcwf ps' hrec p h

/-- A walk that consumes all its tokens and ends at a branch has a
well-defined probability path, and the traversal loop returns the
accumulator times the product of that path. -/
theorem traverseFrom_endsAtBranch {seq : Seq} :
    ∀ (n : ProbNode) (total : ℚ), endsAtBranch n seq = true →
      ∃ ps, pathProbs n seq = some ps ∧
        traverseFrom total n seq = total * ps.prod := by
  induction seq with
  | nil =>
    intro n total hb
    simp [endsAtBranch] at hb
  | cons t rest ih =>
    intro n total hb
    simp only [endsAtBranch] at hb
    rcases hf : n.find t with _ | ⟨p, oc⟩
    · rw [hf] at hb
      simp at hb
    · rw [hf] at hb
      match oc with
      | none => simp at hb
      | some (rem, c) =>
        simp only at hb
        by_cases hrest : rest.isEmpty
        · have hrest2 : rest = [] := by
            cases rest with
            | nil => rfl
            | cons a b => simp at hrest
          subst hrest2
          refine ⟨[p], ?_, ?_⟩
          · simp [pathProbs, hf]
          · simp only [traverseFrom, hf, pathProbs, List.prod_cons,
              List.prod_nil]
            ring
        · rw [if_neg hrest] at hb
          obtain ⟨ps, hps, htr⟩ := ih c (total * p) hb
          refine ⟨p :: ps, ?_, ?_⟩
          · simp [pathProbs, hf, hps]
          · simp only [traverseFrom, hf, htr, List.prod_cons]
            ring

/-- When the traversal loop returns a non-zero value, the
renormalisation-factor loop succeeds and multiplies the accumulator by
val_prb_sum of every visited node. -/
theorem renormFactorFrom_eq_visited {seq : Seq} :
    ∀ (n : ProbNode) (total acc : ℚ), traverseFrom total n seq ≠ 0 →
      renormFactorFrom acc n seq =
        some (acc * ((visitedNodes n seq).map fun x =>
          x.dat.val_prb_sum).prod) := by
  induction seq with
  | nil =>
    intro n total acc htr
    simp [renormFactorFrom, visitedNodes]
  | cons t rest ih =>
    intro n total acc htr
    simp only [traverseFrom] at htr
    rcases hf : n.find t with _ | ⟨p, oc⟩
    · rw [hf] at htr
      exact absurd rfl htr
    · rw [hf] at htr
      match oc with
      | none =>
        simp only [renormFactorFrom, hf, visitedNodes, List.map_cons,
          List.prod_cons]
        rw [show (List.map (fun (x : ProbNode) => x.dat.val_prb_sum)
          [] : List ℚ).prod = 1 by simp]
        ring_nf
      | some (rem, c) =>
        simp only [renormFactorFrom, hf, visitedNodes, List.map_cons,
          List.prod_cons]
        rw [ih c (total * p) (acc * n.dat.val_prb_sum) htr]
        congr 1
        ring

/-! ## Concrete instances used by counterexamples and witnesses -/

/-- A concrete model oracle: token 0 gets probability 1/2 (the vocabulary
max), token 5 gets 1/5, the rest 0. -/
def cexModel : Model := fun _ => [1/2, 0, 0, 0, 0, 1/5]

/-- A concrete uniform model oracle over an 8-token vocabulary. -/
def m47 : Model := fun _ => [1/8, 1/8, 1/8, 1/8, 1/8, 1/8, 1/8, 1/8]

/-- Category input with the single one-token sequence [5] as anagram. -/
def vw5 : ValidWords := ⟨[[5]], [], [], [], [], [], []⟩

/-- Category input with the single two-token sequence [5, 7] as anagram. -/
def vw47 : ValidWords := ⟨[[5, 7]], [], [], [], [], [], []⟩

/-! ## Claim C1: build contexts -/

theorem build_contexts_aux (m : Model) (sw cat : String) :
    ∀ (N : Nat) (seqs : List Seq), totalLen seqs ≤ N → ∀ d,
      ∀ e ∈ (buildNodeT m sw cat seqs d).2, e.2 = fullPrompt sw cat := by
  intro N
  induction N using Nat.strong_induction_on with
  | _ N ih =>
    intro seqs hN d e he
    match seqs with
    | [] =>
      rw [buildNodeT_nil] at he
      simp at he
    | s0 :: srest =>
      obtain ⟨raw, hraw, -, htrace⟩ := buildNodeT_cons_spec m sw cat s0 srest d
      rw [htrace] at he
      rcases List.mem_cons.mp he with h | h
      · rw [h]
      · obtain ⟨l, hl, hel⟩ := List.mem_flatten.mp h
        obtain ⟨x, hx, rfl⟩ := List.mem_map.mp hl
        rcases (hraw x hx).2 with ⟨-, hempty⟩ | ⟨tails, hg, -, htail⟩
        · rw [hempty] at hel
          simp at hel
        · rw [htail] at hel
          have hlt : totalLen tails < totalLen (s0 :: srest) :=
            totalLen_lt_of_mem_group (g := (x.1.1, tails)) hg
          exact ih (totalLen tails) (lt_of_lt_of_le hlt hN) tails le_rfl
            (d + 1) e hel

/-- C1 (corrected). During a per-category build the context string used
for the model lookup is the same fixed category prompt (the f-string
built from the start word and the category name) at every depth: the
consumed tokens are never appended, so a depth d > 0 lookup reuses the
depth-0 context (and is served by the per-build vector cache). -/
theorem build_context_fixed_at_every_depth (m : Model) (sw cat : String)
    (seqs : List Seq) (d : Nat) (e : Nat × String)
    (he : e ∈ (buildNodeT m sw cat seqs d).2) : e.2 = fullPrompt sw cat :=
  build_contexts_aux m sw cat (totalLen seqs) seqs le_rfl d e he

/-- Witness for build_context_fixed_at_every_depth at a concrete input. -/
theorem build_context_fixed_at_every_depth_witness :
    ((0, fullPrompt "cat" "anagram") ∈
        (buildNodeT cexModel "cat" "anagram" [[5]] 0).2) ∧
      ((0, fullPrompt "cat" "anagram") : Nat × String).2 =
        fullPrompt "cat" "anagram" :=
  ⟨by simp [buildNodeT, cexModel, groupByFirstToken, firstsAux, tailsFor,
      mkNodeFromRaw],
    build_context_fixed_at_every_depth cexModel "cat" "anagram" [[5]] 0 _
      (by simp [buildNodeT, cexModel, groupByFirstToken, firstsAux,
        tailsFor, mkNodeFromRaw])⟩

/-- Counterexample to C1 as stated: building from the two-token sequence
[5, 7], the depth-1 model context equals the depth-0 context (the fixed
prompt), not the depth-0 prompt followed by the decoded consumed token
and a space; in particular distinct depths along the branch do NOT query
distinct contexts. -/
theorem build_context_depth1_equals_depth0_cex :
    (buildNodeT m47 "cat" "anagram" [[5, 7]] 0).2 =
        [(0, fullPrompt "cat" "anagram"), (1, fullPrompt "cat" "anagram")] ∧
      ¬ ((buildNodeT m47 "cat" "anagram" [[5, 7]] 0).2.map
          Prod.snd).Nodup := by
  have h : (buildNodeT m47 "cat" "anagram" [[5, 7]] 0).2 =
      [(0, fullPrompt "cat" "anagram"), (1, fullPrompt "cat" "anagram")] := by
    simp [buildNodeT, m47, groupByFirstToken, firstsAux, tailsFor,
      mkNodeFromRaw]
  exact ⟨h, by rw [h]; simp⟩

/-! ## Claim C2: val_prb_sum -/

/-- C2 (corrected). For a node built from a non-empty sequence list the
stored dat.val_prb_sum is computed after the node-local renormalisation:
it equals 1 whenever the sparse map is non-empty (and 0 when it is
empty); it is not the pre-renormalisation raw sum. -/
theorem val_prb_sum_after_renormalisation (m : Model) (sw cat : String)
    (seqs : List Seq) (d : Nat) (hne : seqs ≠ []) :
    ((buildNodeT m sw cat seqs d).1.prb ≠ [] →
        (buildNodeT m sw cat seqs d).1.dat.val_prb_sum = 1) ∧
      ((buildNodeT m sw cat seqs d).1.prb = [] →
        (buildNodeT m sw cat seqs d).1.dat.val_prb_sum = 0) := by
  match seqs with
  | [] => exact absurd rfl hne
  | s0 :: srest =>
    obtain ⟨raw, hraw, hnode, -⟩ := buildNodeT_cons_spec m sw cat s0 srest d
    have hpos : ∀ x ∈ raw, 0 < x.1.2.1 := fun x hx => (hraw x hx).1
    obtain ⟨hnorm, hval, hzero⟩ :=
      mkNodeFromRaw_normalized (s0 :: srest) (m (fullPrompt sw cat)) raw hpos
    rw [hnode]
    exact ⟨fun hprbne => by rw [hval, (hnorm hprbne).1], hzero⟩

/-- Witness for val_prb_sum_after_renormalisation at a concrete input. -/
theorem val_prb_sum_after_renormalisation_witness :
    (([[5]] : List Seq) ≠ []) ∧
      (((buildNodeT cexModel "cat" "anagram" [[5]] 0).1.prb ≠ [] →
          (buildNodeT cexModel "cat" "anagram" [[5]] 0).1.dat.val_prb_sum = 1) ∧
        ((buildNodeT cexModel "cat" "anagram" [[5]] 0).1.prb = [] →
          (buildNodeT cexModel "cat" "anagram" [[5]] 0).1.dat.val_prb_sum = 0)) :=
  ⟨by simp,
    val_prb_sum_after_renormalisation cexModel "cat" "anagram" [[5]] 0
      (by simp)⟩

/-- Counterexample to C2 as stated: for the model giving token 5 the raw
probability 1/5, the raw sum over the restricted valid token set is 1/5,
but the stored val_prb_sum is the post-renormalisation value 1. -/
theorem val_prb_sum_not_raw_sum_cex :
    (buildNodeT cexModel "cat" "anagram" [[5]] 0).1.dat.val_prb_sum = 1 ∧
      rawValidSum (cexModel (fullPrompt "cat" "anagram")) [[5]] = 1 / 5 ∧
      (buildNodeT cexModel "cat" "anagram" [[5]] 0).1.dat.val_prb_sum ≠
        rawValidSum (cexModel (fullPrompt "cat" "anagram")) [[5]] := by
  refine ⟨?_, ?_, ?_⟩
  · simp [buildNodeT, cexModel, groupByFirstToken, firstsAux, tailsFor,
      mkNodeFromRaw, ProbNode.dat]
  · simp [rawValidSum, cexModel, groupByFirstToken, firstsAux, tailsFor]
  · simp [buildNodeT, cexModel, groupByFirstToken, firstsAux, tailsFor,
      mkNodeFromRaw, ProbNode.dat, rawValidSum]

/-! ## Claim C3: creativity score formula -/

/-- C3 (corrected). get_creativity_score returns
(seq_p x R) / M with R the product of val_prb_sum over the visited nodes
and M the root's org_max, guarded by seq_p = 0 and M > 0 — with NO
clamping to [0, 1]. -/
theorem creativity_score_formula (tree : WordTree) (cat : TreeCat)
    (seq : Seq) :
    getCreativityScore tree cat seq =
      if getSequenceProbability tree cat seq = 0 then 0
      else if 0 < (tree.node cat).dat.org_max then
        getSequenceProbability tree cat seq *
          ((visitedNodes (tree.node cat) seq).map fun x =>
            x.dat.val_prb_sum).prod / (tree.node cat).dat.org_max
      else 0 := by
  by_cases hsp : getSequenceProbability tree cat seq = 0
  · simp [getCreativityScore, hsp]
  · rw [if_neg hsp]
    have hren : renormFactorFrom 1 (tree.node cat) seq =
        some (1 * ((visitedNodes (tree.node cat) seq).map fun x =>
          x.dat.val_prb_sum).prod) := by
      match hs : seq with
      | [] => simp [renormFactorFrom, visitedNodes]
      | t :: rest =>
        have htr : traverseFrom 1 (tree.node cat) (t :: rest) ≠ 0 := by
          have heq : getSequenceProbability tree cat (t :: rest) =
              traverseFrom 1 (tree.node cat) (t :: rest) := rfl
          rw [heq] at hsp
          exact hsp
        exact renormFactorFrom_eq_visited (tree.node cat) 1 1 htr
    simp only [getCreativityScore, hren, if_neg hsp, one_mul]

/-- Counterexample to C3 as stated: on the tree built from the model
whose vocabulary max is 1/2 while the only valid token has raw
probability 1/5, the creativity score of [5] is 2, which lies outside
[0, 1] — the code does not clamp. -/
theorem creativity_exceeds_one_cex :
    getCreativityScore (buildCompleteTree cexModel "cat" vw5)
        TreeCat.ana [5] = 2 ∧
      ¬ getCreativityScore (buildCompleteTree cexModel "cat" vw5)
        TreeCat.ana [5] ≤ 1 := by
  have h : getCreativityScore (buildCompleteTree cexModel "cat" vw5)
      TreeCat.ana [5] = 2 := by
    simp [getCreativityScore, getSequenceProbability, buildCompleteTree,
      WordTree.node, vw5, TreeCat.display, buildNodeT, cexModel,
      groupByFirstToken, firstsAux, tailsFor, mkNodeFromRaw, ProbNode.dat,
      ProbNode.find, ProbNode.prb, traverseProbabilityNode, traverseFrom,
      renormFactorFrom, pyMax, pyMaxNat]
    norm_num
  exact ⟨h, by rw [h]; norm_num⟩

/-! ## Claim C4: strict prefixes -/

/-- C4 (corrected). A walk that consumes all of a non-empty sequence and
ends at a branch node returns the product of the stored probabilities
along the path — a strictly positive value for a built tree, NOT 0; the
empty sequence returns 1. -/
theorem traverse_branch_end_eq_path_product (m : Model) (sw cat : String)
    (seqs : List Seq) (d : Nat) (seq : Seq)
    (hb : endsAtBranch (buildNodeT m sw cat seqs d).1 seq = true) :
    (∃ ps, pathProbs (buildNodeT m sw cat seqs d).1 seq = some ps ∧
        traverseProbabilityNode (buildNodeT m sw cat seqs d).1 seq =
          ps.prod ∧ 0 < ps.prod) ∧
      traverseProbabilityNode (buildNodeT m sw cat seqs d).1 [] = 1 := by
  refine ⟨?_, rfl⟩
  match hs : seq with
  | [] => simp [endsAtBranch] at hb
  | t :: rest =>
    obtain ⟨ps, hps, htr⟩ :=
      traverseFrom_endsAtBranch (buildNodeT m sw cat seqs d).1 1 hb
    have hwf : SubtreeWF (buildNodeT m sw cat seqs d).1 :=
      buildNodeT_wf m sw cat (totalLen seqs) seqs le_rfl d
    have hpos : ∀ p ∈ ps, 0 < p := pathProbs_pos hwf (t :: rest) ps hps
    refine ⟨ps, hps, ?_, List.prod_pos hpos⟩
    have : traverseProbabilityNode (buildNodeT m sw cat seqs d).1
        (t :: rest) = traverseFrom 1 (buildNodeT m sw cat seqs d).1
        (t :: rest) := rfl
    rw [this, htr, one_mul]

/-- Witness for traverse_branch_end_eq_path_product at a concrete input:
the sequence [5] ends at a branch of the tree built from [[5, 7]]. -/
theorem traverse_branch_end_eq_path_product_witness :
    endsAtBranch (buildNodeT m47 "cat" "anagram" [[5, 7]] 0).1 [5] = true ∧
      ((∃ ps, pathProbs (buildNodeT m47 "cat" "anagram" [[5, 7]] 0).1 [5] =
          some ps ∧
          traverseProbabilityNode
            (buildNodeT m47 "cat" "anagram" [[5, 7]] 0).1 [5] = ps.prod ∧
          0 < ps.prod) ∧
        traverseProbabilityNode
          (buildNodeT m47 "cat" "anagram" [[5, 7]] 0).1 [] = 1) :=
  ⟨by simp [endsAtBranch, buildNodeT, m47, groupByFirstToken, firstsAux,
      tailsFor, mkNodeFromRaw, ProbNode.find, ProbNode.prb],
    traverse_branch_end_eq_path_product m47 "cat" "anagram" [[5, 7]] 0 [5]
      (by simp [endsAtBranch, buildNodeT, m47, groupByFirstToken,
        firstsAux, tailsFor, mkNodeFromRaw, ProbNode.find, ProbNode.prb])⟩

/-- Counterexample to C4 as stated: [5] is strictly a prefix of the
stored sequence [5, 7] (its walk consumes everything and ends at a
branch), yet get_sequence_probability returns 1, not 0. -/
theorem strict_prefix_probability_nonzero_cex :
    endsAtBranch ((buildCompleteTree m47 "cat" vw47).node TreeCat.ana)
        [5] = true ∧
      getSequenceProbability (buildCompleteTree m47 "cat" vw47)
        TreeCat.ana [5] = 1 ∧
      getSequenceProbability (buildCompleteTree m47 "cat" vw47)
        TreeCat.ana [5] ≠ 0 := by
  refine ⟨?_, ?_, ?_⟩
  · simp [endsAtBranch, buildCompleteTree, WordTree.node, vw47,
      TreeCat.display, buildNodeT, m47, groupByFirstToken, firstsAux,
      tailsFor, mkNodeFromRaw, ProbNode.find, ProbNode.prb]
  · simp [getSequenceProbability, buildCompleteTree, WordTree.node, vw47,
      TreeCat.display, buildNodeT, m47, groupByFirstToken, firstsAux,
      tailsFor, mkNodeFromRaw, ProbNode.find, ProbNode.prb,
      traverseProbabilityNode, traverseFrom]
  · simp [getSequenceProbability, buildCompleteTree, WordTree.node, vw47,
      TreeCat.display, buildNodeT, m47, groupByFirstToken, firstsAux,
      tailsFor, mkNodeFromRaw, ProbNode.find, ProbNode.prb,
      traverseProbabilityNode, traverseFrom]

/-! ## Claim C5: node normalisation -/

theorem subtreeWF_everyNode {n : ProbNode} (h : SubtreeWF n) :
    EveryNode (fun n => n.prb ≠ [] →
      |(nodeProbs n).sum - 1| ≤ 1 / 1000 ∧
      ∀ p ∈ nodeProbs n, 0 ≤ p ∧ p ≤ 1) n := by
  induction h with
  | intro n h1 h2 ih =>
    refine EveryNode.intro n ?_ ih
    intro hne
    obtain ⟨hsum, hall⟩ := h1 hne
    refine ⟨by rw [hsum]; norm_num, fun p hp =>
      ⟨le_of_lt (hall p hp).1, (hall p hp).2⟩⟩

/-- C5 (confirmed). In every built (hence validated and stored) tree,
every probability node with a non-empty sparse map has stored
probabilities summing to 1 within 1e-3 (in this exact-arithmetic model
the sum is exactly 1) with every stored probability inside [0, 1]. -/
theorem built_tree_nodes_normalized (m : Model) (sw : String)
    (vw : ValidWords) (cat : TreeCat) :
    EveryNode (fun n => n.prb ≠ [] →
        |(nodeProbs n).sum - 1| ≤ 1 / 1000 ∧
        ∀ p ∈ nodeProbs n, 0 ≤ p ∧ p ≤ 1)
      ((buildCompleteTree m sw vw).node cat) := by
  have hwf : SubtreeWF ((buildCompleteTree m sw vw).node cat) := by
    cases cat <;>
      exact buildNodeT_wf m sw _ (totalLen _) _ le_rfl 0
  exact subtreeWF_everyNode hwf

/-! ## Claim C9: empty categories are safe -/

/-- C9 (confirmed). A category that was empty at build time gets the
sentinel node (val = the null sentinel, prb empty, zero metadata); every
lookup of a non-empty token sequence in it is total and benign:
get_sequence_probability returns 0 and get_creativity_score returns 0
(the zero sequence probability short-circuits before the org_max
division, which is itself guarded by org_max > 0). -/
theorem empty_category_lookups_zero (m : Model) (sw : String)
    (vw : ValidWords) (cat : TreeCat) (seq : Seq)
    (hcat : vw.seqs cat = []) (hne : seq ≠ []) :
    (buildCompleteTree m sw vw).node cat = sentinelNode ∧
      getSequenceProbability (buildCompleteTree m sw vw) cat seq = 0 ∧
      getCreativityScore (buildCompleteTree m sw vw) cat seq = 0 := by
  have hnode : (buildCompleteTree m sw vw).node cat = sentinelNode := by
    cases cat <;>
      simp_all [buildCompleteTree, WordTree.node, ValidWords.seqs,
        buildNodeT_nil]
  have hsp : getSequenceProbability (buildCompleteTree m sw vw) cat seq
      = 0 := by
    match seq with
    | [] => exact absurd rfl hne
    | t :: rest =>
      simp [getSequenceProbability, hnode, traverseProbabilityNode,
        traverseFrom, sentinelNode, ProbNode.find, ProbNode.prb]
  refine ⟨hnode, hsp, ?_⟩
  simp [getCreativityScore, hsp]

/-- Witness for empty_category_lookups_zero at a concrete input. -/
theorem empty_category_lookups_zero_witness :
    (vw5.seqs TreeCat.prf = [] ∧ ([1] : Seq) ≠ []) ∧
      ((buildCompleteTree cexModel "cat" vw5).node TreeCat.prf =
          sentinelNode ∧
        getSequenceProbability (buildCompleteTree cexModel "cat" vw5)
          TreeCat.prf [1] = 0 ∧
        getCreativityScore (buildCompleteTree cexModel "cat" vw5)
          TreeCat.prf [1] = 0) :=
  ⟨⟨rfl, by simp⟩,
    empty_category_lookups_zero cexModel "cat" vw5 TreeCat.prf [1] rfl
      (by simp)⟩

/-! ## Scoring service: base-score table (enhanced_scoring_service.py)

The per-(category, length) cache of _get_base_score stores exactly the
value computed below under a key determined by the pair, so it is
semantically transparent and not modelled. -/

/-- The base_scores nested dictionary of _get_base_score. -/
def baseScores : List (String × List (Nat × ℚ)) :=
  [("ola", [(3, 100), (4, 200), (5, 300), (6, 400), (7, 500)]),
   ("olr", [(3, 100), (4, 200), (5, 300), (6, 400), (7, 500)]),
   ("olx", [(3, 100), (4, 200), (5, 300), (6, 400), (7, 500)]),
   ("prf", [(3, 50), (4, 100), (5, 150), (6, 200), (7, 250)]),
   ("rch", [(3, 150), (4, 300), (5, 450), (6, 600), (7, 750)]),
   ("ana", [(3, 100), (4, 300), (5, 500), (6, 700), (7, 900)]),
   ("sln", [(3, 75), (4, 150), (5, 225), (6, 300), (7, 375)])]

/-- _get_base_score: base_scores.get(category, curly-empty).get(word_length, 100). -/
def getBaseScore (category : String) (wordLength : Nat) : ℚ :=
  let catTable :=
    match baseScores.find? fun e => e.1 = category with
    | none => []
    | some e => e.2
  match catTable.find? fun e => e.1 = wordLength with
  | none => 100
  | some e => e.2

/-- The BASE table of the spec (section 4.9), under which length 8 reuses
the length-7 value. -/
def specBase (category : String) (wordLength : Nat) : ℚ :=
  let wl := if wordLength = 8 then 7 else wordLength
  if category = "prf" then
    if wl = 3 then 50 else if wl = 4 then 100 else if wl = 5 then 150
    else if wl = 6 then 200 else if wl = 7 then 250 else 0
  else if category = "rch" then
    if wl = 3 then 150 else if wl = 4 then 300 else if wl = 5 then 450
    else if wl = 6 then 600 else if wl = 7 then 750 else 0
  else if category = "sln" then
    if wl = 3 then 75 else if wl = 4 then 150 else if wl = 5 then 225
    else if wl = 6 then 300 else if wl = 7 then 375 else 0
  else if category = "ana" then
    if wl = 3 then 100 else if wl = 4 then 300 else if wl = 5 then 500
    else if wl = 6 then 700 else if wl = 7 then 900 else 0
  else if category = "ola" ∨ category = "olr" ∨ category = "olx" then
    if wl = 3 then 100 else if wl = 4 then 200 else if wl = 5 then 300
    else if wl = 6 then 400 else if wl = 7 then 500 else 0
  else 0

/-- C7 (corrected). For lengths 3 through 7 the base score matches the
BASE table, but a length-8 word falls through to the default value 100
for every category (the per-category dictionaries hold no length-8 key),
not to the category's length-7 value. -/
theorem base_score_table_and_length8_default (c : String)
    (hc : c ∈ ["ola", "olr", "olx", "prf", "rch", "sln", "ana"])
    (wl : Nat) (hwl : wl ∈ [3, 4, 5, 6, 7]) :
    getBaseScore c wl = specBase c wl ∧ getBaseScore c 8 = 100 := by
  simp only [List.mem_cons, List.mem_singleton, List.not_mem_nil,
    or_false] at hc hwl
  rcases hc with rfl | rfl | rfl | rfl | rfl | rfl | rfl <;>
    rcases hwl with rfl | rfl | rfl | rfl | rfl <;> exact ⟨by decide, by decide⟩

/-- Witness for base_score_table_and_length8_default. -/
theorem base_score_table_and_length8_default_witness :
    (("prf" : String) ∈ ["ola", "olr", "olx", "prf", "rch", "sln", "ana"] ∧
        (3 : Nat) ∈ [3, 4, 5, 6, 7]) ∧
      (getBaseScore "prf" 3 = specBase "prf" 3 ∧ getBaseScore "prf" 8 = 100) :=
  ⟨⟨by decide, by decide⟩,
    base_score_table_and_length8_default "prf" (by decide) 3 (by decide)⟩

/-- Counterexample to C7 as stated: a perfect-rhyme candidate of length 8
gets base score 100 (the dictionary-miss default), not the length-7 value
250 that the claim asserts. -/
theorem base_score_length8_not_length7_cex :
    getBaseScore "prf" 8 = 100 ∧ specBase "prf" 7 = 250 ∧
      getBaseScore "prf" 8 ≠ specBase "prf" 7 := by
  refine ⟨by decide, by decide, by decide⟩

/-! ## Word engine (efficient_word_engine.py)

Words are lists of characters (the engine lowercases its inputs and the
lexicon file is lowercased on load, so all words handled here are already
lowercase). The transformation trie mirrors TrieNode: children in
insertion order plus the is_word flag (the word_count and max_depth
statistics are written but never read on the code paths below, so they
are not modelled). The CMU pronunciation lookup is a pure oracle from a
word to its list of phone strings, matching phones_for_word. -/

abbrev W := List Char

inductive Trie : Type where
  | mk : List (Char × Trie) → Bool → Trie

def Trie.children : Trie → List (Char × Trie)
  | .mk cs _ => cs

def Trie.isWord : Trie → Bool
  | .mk _ b => b

def emptyTrie : Trie := .mk [] false

/-- Lookup of a child by letter (Python dict access on node.children). -/
def childLookup (cs : List (Char × Trie)) (c : Char) : Option Trie :=
  match cs.find? fun e => e.1 = c with
  | none => none
  | some e => some e.2

/-- In-place update of a child entry, appending a new key at the end
(Python dict insertion semantics). -/
def updateChild : List (Char × Trie) → Char → Trie → List (Char × Trie)
  | [], c, t => [(c, t)]
  | (c', t') :: rest, c, t =>
    if c' = c then (c, t) :: rest else (c', t') :: updateChild rest c t

/-- _insert_with_stats: walk the word, creating missing children, and set
is_word at the final node. -/
def trieInsert (t : Trie) : W → Trie
  | [] => .mk t.children true
  | c :: rest =>
    let sub := match childLookup t.children c with
      | none => emptyTrie
      | some s => s
    .mk (updateChild t.children c (trieInsert sub rest)) t.isWord

def buildTrie (words : List W) : Trie := words.foldl trieInsert emptyTrie

/-- _find_trie_node. -/
def findNode (t : Trie) : W → Option Trie
  | [] => some t
  | c :: rest =>
    match childLookup t.children c with
    | none => none
    | some sub => findNode sub rest

/-- _trie_contains_word. -/
def containsWord (t : Trie) (w : W) : Bool :=
  match findNode t w with
  | none => false
  | some n => n.isWord

def alphabet : List Char := "abcdefghijklmnopqrstuvwxyz".toList

/-- _trie_generate_added_letters: for every split position, every trie
child letter of the prefix whose full insertion is a trie word. -/
def trieGenerateAddedLetters (trie : Trie) (w : W) : List W :=
  (List.range (w.length + 1)).flatMap fun i =>
    match findNode trie (w.take i) with
    | none => []
    | some node =>
      alphabet.filterMap fun c =>
        if (childLookup node.children c).isSome then
          if containsWord trie (w.take i ++ [c] ++ w.drop i) then
            some (w.take i ++ [c] ++ w.drop i)
          else none
        else none

/-- _trie_generate_removed_letters. -/
def trieGenerateRemovedLetters (trie : Trie) (w : W) : List W :=
  (List.range w.length).filterMap fun i =>
    if containsWord trie (w.take i ++ w.drop (i + 1)) then
      some (w.take i ++ w.drop (i + 1))
    else none

/-- _trie_generate_changed_letters: the current letter is w at position i
(the positions come from range w.length, so the getD default is never
used). -/
def trieGenerateChangedLetters (trie : Trie) (w : W) : List W :=
  (List.range w.length).flatMap fun i =>
    match findNode trie (w.take i) with
    | none => []
    | some node =>
      alphabet.filterMap fun c =>
        if c ≠ w.getD i ' ' ∧ (childLookup node.children c).isSome then
          if containsWord trie (w.take i ++ [c] ++ w.drop (i + 1)) then
            some (w.take i ++ [c] ++ w.drop (i + 1))
          else none
        else none

structure OloResult where
  added : List W
  removed : List W
  changed : List W

/-- get_one_letter_off: generate candidates with the trie, then keep the
quality-word members (the added bucket additionally excludes the word
itself). -/
def getOneLetterOff (trie : Trie) (qualityWords : List W) (w : W) :
    OloResult where
  added := (trieGenerateAddedLetters trie w).filter fun cand =>
    decide (cand ∈ qualityWords ∧ cand ≠ w)
  removed := (trieGenerateRemovedLetters trie w).filter fun cand =>
    decide (cand ∈ qualityWords)
  changed := (trieGenerateChangedLetters trie w).filter fun cand =>
    decide (cand ∈ qualityWords)

/-- LETTER_PRIMES. -/
def letterPrimes : List (Char × Nat) :=
  [('a', 2), ('b', 3), ('c', 5), ('d', 7), ('e', 11), ('f', 13), ('g', 17),
   ('h', 19), ('i', 23), ('j', 29), ('k', 31), ('l', 37), ('m', 41),
   ('n', 43), ('o', 47), ('p', 53), ('q', 59), ('r', 61), ('s', 67),
   ('t', 71), ('u', 73), ('v', 79), ('w', 83), ('x', 89), ('y', 97),
   ('z', 101)]

/-- _compute_prime_signature: product of letter primes, skipping
characters outside the table. -/
def primeSignature (w : W) : Nat :=
  w.foldl (fun (acc : Nat) (c : Char) =>
    match letterPrimes.find? fun e => e.1 = c with
    | none => acc
    | some e => acc * e.2) 1

/-- get_anagrams over a loaded anagram index: the group of the word's
prime signature, minus the word itself. -/
def getAnagrams (anagramIndex : List (Nat × List W)) (w : W) : List W :=
  (match anagramIndex.find? fun (e : Nat × List W) =>
      e.1 = primeSignature w with
   | none => []
   | some e => e.2).filter fun x => decide (x ≠ w)

/-! ### Rhyme categorisation -/

/-- Python str.split() for the space-separated CMU phone strings. -/
def pySplit (s : String) : List String :=
  (s.splitOn " ").filter fun x => decide (x ≠ "")

def hasStressMark (p : String) : Bool := p.contains '1' || p.contains '2'

/-- _extract_rhyming_part: from the last phoneme carrying a primary or
secondary stress digit to the end, joined with spaces; empty when no
stressed phoneme exists. -/
def extractRhymingPart (phones : String) : String :=
  let ps := pySplit phones
  match (List.range ps.length).reverse.find? fun i =>
      hasStressMark (ps.getD i "") with
  | none => ""
  | some i => String.intercalate " " (ps.drop i)

/-- _is_perfect_rhyme. -/
def isPerfectRhyme (p1 p2 : String) : Bool :=
  decide (extractRhymingPart p1 = extractRhymingPart p2 ∧
    extractRhymingPart p1 ≠ "")

/-- HOMOPHONE_PAIRS. -/
def homophonePairs : List (W × List W) :=
  [("there".toList, ["their".toList, "they're".toList]),
   ("their".toList, ["there".toList, "they're".toList]),
   ("they're".toList, ["there".toList, "their".toList]),
   ("here".toList, ["hear".toList]),
   ("hear".toList, ["here".toList]),
   ("where".toList, ["wear".toList]),
   ("wear".toList, ["where".toList]),
   ("to".toList, ["too".toList, "two".toList]),
   ("too".toList, ["to".toList, "two".toList]),
   ("two".toList, ["to".toList, "too".toList]),
   ("for".toList, ["four".toList]),
   ("four".toList, ["for".toList]),
   ("by".toList, ["buy".toList]),
   ("buy".toList, ["by".toList]),
   ("see".toList, ["sea".toList]),
   ("sea".toList, ["see".toList]),
   ("meet".toList, ["meat".toList]),
   ("meat".toList, ["meet".toList]),
   ("right".toList, ["write".toList]),
   ("write".toList, ["right".toList]),
   ("knight".toList, ["night".toList]),
   ("night".toList, ["knight".toList]),
   ("know".toList, ["no".toList]),
   ("no".toList, ["know".toList]),
   ("new".toList, ["knew".toList]),
   ("knew".toList, ["new".toList]),
   ("one".toList, ["won".toList]),
   ("won".toList, ["one".toList]),
   ("ate".toList, ["eight".toList]),
   ("eight".toList, ["ate".toList]),
   ("break".toList, ["brake".toList]),
   ("brake".toList, ["break".toList]),
   ("flower".toList, ["flour".toList]),
   ("flour".toList, ["flower".toList]),
   ("peace".toList, ["piece".toList]),
   ("piece".toList, ["peace".toList]),
   ("plain".toList, ["plane".toList]),
   ("plane".toList, ["plain".toList]),
   ("rain".toList, ["reign".toList]),
   ("reign".toList, ["rain".toList]),
   ("road".toList, ["rode".toList]),
   ("rode".toList, ["road".toList]),
   ("sail".toList, ["sale".toList]),
   ("sale".toList, ["sail".toList]),
   ("son".toList, ["sun".toList]),
   ("sun".toList, ["son".toList]),
   ("tail".toList, ["tale".toList]),
   ("tale".toList, ["tail".toList]),
   ("wait".toList, ["weight".toList]),
   ("weight".toList, ["wait".toList]),
   ("way".toList, ["weigh".toList]),
   ("weigh".toList, ["way".toList]),
   ("weak".toList, ["week".toList]),
   ("week".toList, ["weak".toList]),
   ("weather".toList, ["whether".toList]),
   ("whether".toList, ["weather".toList]),
   ("wood".toList, ["would".toList]),
   ("would".toList, ["wood".toList])]

abbrev Pron := W → List String

/-- _is_rich_rhyme: the homophone table is consulted first and its answer
is final (even when negative); only when neither word is a table key are
the pronunciations compared pairwise for exact equality. -/
def isRichRhyme (pron : Pron) (w1 w2 : W) : Bool :=
  match homophonePairs.find? fun e => e.1 = w1 with
  | some e => decide (w2 ∈ e.2)
  | none =>
    match homophonePairs.find? fun e => e.1 = w2 with
    | some e => decide (w1 ∈ e.2)
    | none =>
      if pron w1 ≠ [] ∧ pron w2 ≠ [] then
        (pron w1).any fun a => (pron w2).any fun b => decide (a = b)
      else false

def vowelPhones : List String :=
  ["AA", "AE", "AH", "AO", "AW", "AY", "EH", "ER", "EY", "IH", "IY",
   "OW", "OY", "UH", "UW"]

def containsSub (s sub : String) : Bool :=
  decide (sub.toList <:+: s.toList)

def phonemeIsVowel (p : String) : Bool :=
  vowelPhones.any fun v => containsSub p v

def extractVowelsWithStress (phones : String) : String :=
  String.intercalate " " ((pySplit phones).filter phonemeIsVowel)

def extractConsonants (phones : String) : String :=
  String.intercalate " " ((pySplit phones).filter fun p => ! phonemeIsVowel p)

/-- _similar_consonant_pattern: keep the alphabetic non-AEIOU characters,
require two on both sides, and compare the final two. -/
def similarConsonantPattern (r1 r2 : String) : Bool :=
  let c1 := r1.toList.filter fun c =>
    c.isAlpha && decide (c ∉ ['A', 'E', 'I', 'O', 'U'])
  let c2 := r2.toList.filter fun c =>
    c.isAlpha && decide (c ∉ ['A', 'E', 'I', 'O', 'U'])
  if 2 ≤ c1.length ∧ 2 ≤ c2.length then
    decide (c1.drop (c1.length - 2) = c2.drop (c2.length - 2))
  else false

def hasAssonance (r1 r2 : String) : Bool :=
  let v1 := extractVowelsWithStress r1
  let v2 := extractVowelsWithStress r2
  if v1 = "" ∨ v2 = "" then false else decide (v1 = v2)

def hasConsonance (r1 r2 : String) : Bool :=
  let c1 := extractConsonants r1
  let c2 := extractConsonants r2
  if c1 = "" ∨ c2 = "" then false else similarConsonantPattern c1 c2

/-- _has_half_rhyme: at least two positionally shared phonemes and at
least a 50 percent positional overlap (the float comparison is exact at
these scales and is modelled as an exact rational comparison). -/
def hasHalfRhyme (r1 r2 : String) : Bool :=
  let p1 := pySplit r1
  let p2 := pySplit r2
  if p1.length < 2 ∨ p2.length < 2 then false
  else
    let m := min p1.length p2.length
    let shared := ((List.range m).filter fun i =>
      decide (p1.getD i "" = p2.getD i "")).length
    decide (2 ≤ shared) && decide ((1 : ℚ) / 2 ≤ (shared : ℚ) / (m : ℚ))

/-- _is_slant_rhyme_pronunciation. -/
def isSlantRhymePron (p1 p2 : String) : Bool :=
  let r1 := extractRhymingPart p1
  let r2 := extractRhymingPart p2
  if r1 = "" ∨ r2 = "" then false
  else if r1 = r2 then false
  else hasAssonance r1 r2 || hasConsonance r1 r2 || hasHalfRhyme r1 r2

/-- _is_slant_rhyme. -/
def isSlantRhyme (pron : Pron) (w1 w2 : W) : Bool :=
  if w1 = w2 then false
  else if pron w1 = [] ∨ pron w2 = [] then false
  else (pron w1).any fun a => (pron w2).any fun b => isSlantRhymePron a b

/-- _is_near_rhyme. -/
def isNearRhyme (p1 p2 : String) : Bool :=
  let r1 := extractRhymingPart p1
  let r2 := extractRhymingPart p2
  if r1 = "" ∨ r2 = "" then false else similarConsonantPattern r1 r2

structure RhymeBuckets where
  perfect : List W
  near : List W
  rich : List W
  slant : List W

/-- Append-if-absent, i.e. the membership-guarded list append of
categorize_rhymes_by_quality. -/
def addIfNew (l : List W) (x : W) : List W := if x ∈ l then l else l ++ [x]

/-- One iteration of the innermost loop of categorize_rhymes_by_quality
(the elif chain Prf then Rch then Sln then Near). -/
def categorizeStep (pron : Pron) (word : W) (b : RhymeBuckets)
    (wp : String) (rhyme : W) (rp : String) : RhymeBuckets :=
  if isPerfectRhyme wp rp then { b with perfect := addIfNew b.perfect rhyme }
  else if isRichRhyme pron word rhyme then
    { b with rich := addIfNew b.rich rhyme }
  else if isSlantRhyme pron word rhyme then
    { b with slant := addIfNew b.slant rhyme }
  else if isNearRhyme wp rp then { b with near := addIfNew b.near rhyme }
  else b

/-- categorize_rhymes_by_quality: all (word pronunciation, rhyme, rhyme
pronunciation) combinations in loop order. -/
def categorizeRhymesByQuality (pron : Pron) (word : W) (rhymes : List W) :
    RhymeBuckets :=
  if pron word = [] then ⟨[], [], [], []⟩
  else
    ((pron word).flatMap fun wp => rhymes.flatMap fun r =>
        (pron r).map fun rp => (wp, r, rp)).foldl
      (fun b x => categorizeStep pron word b x.1 x.2.1 x.2.2) ⟨[], [], [], []⟩

/-- _find_comprehensive_rhymes: every quality word other than the word
itself that has a pronunciation and shares a rhyming part with some
pronunciation of the word. The Python set is modelled by filtering the
(duplicate-free) quality-word list, which has the same members. -/
def findComprehensiveRhymes (pron : Pron) (qualityWords : List W)
    (word : W) : List W :=
  if pron word = [] then []
  else qualityWords.filter fun cand =>
    decide (cand ≠ word) && decide (pron cand ≠ []) &&
      ((pron word).map extractRhymingPart).any fun wp =>
        decide (wp ∈ (pron cand).map extractRhymingPart)

/-! ## Shape of the OLO candidates (claims C6 and C8) -/

theorem insertAt_length (w : W) (i : Nat) (c : Char) (hi : i ≤ w.length) :
    (w.take i ++ [c] ++ w.drop i).length = w.length + 1 := by
  simp only [List.length_append, List.length_take, List.length_drop,
    List.length_cons, List.length_nil]
  omega

theorem removeAt_length (w : W) (i : Nat) (hi : i < w.length) :
    (w.take i ++ w.drop (i + 1)).length + 1 = w.length := by
  simp only [List.length_append, List.length_take, List.length_drop]
  omega

theorem replaceAt_length (w : W) (i : Nat) (c : Char) (hi : i < w.length) :
    (w.take i ++ [c] ++ w.drop (i + 1)).length = w.length := by
  simp only [List.length_append, List.length_take, List.length_drop,
    List.length_cons, List.length_nil]
  omega

theorem append_cons_getElem_mid (A B : List Char) (c : Char) :
    (A ++ [c] ++ B)[A.length]? = some c := by
  have h1 : (A ++ [c] ++ B)[A.length]? = (A ++ [c])[A.length]? := by
    rw [List.getElem?_append]
    rw [if_pos (by simp)]
  rw [h1, List.getElem?_append_right (le_refl A.length)]
  simp

/-- The i-th character of a one-letter replacement at position i. -/
theorem replaceAt_getElem_self (w : W) (i : Nat) (c : Char)
    (hi : i < w.length) :
    (w.take i ++ [c] ++ w.drop (i + 1))[i]? = some c := by
  have htake : (w.take i).length = i := by
    simp [List.length_take]
    omega
  have h := append_cons_getElem_mid (w.take i) (w.drop (i + 1)) c
  rwa [htake] at h

/-- Away from position i a one-letter replacement agrees with the word. -/
theorem replaceAt_getElem_ne (w : W) (i j : Nat) (c : Char) (hij : j ≠ i)
    (hi : i < w.length) :
    (w.take i ++ [c] ++ w.drop (i + 1))[j]? = w[j]? := by
  have htake : (w.take i).length = i := by
    simp [List.length_take]
    omega
  rcases Nat.lt_or_ge j i with hj | hj
  · rw [List.getElem?_append, if_pos (by simp [htake]; omega)]
    rw [List.getElem?_append, if_pos (by omega)]
    rw [List.getElem?_take, if_pos hj]
  · have hj2 : i + 1 ≤ j := by omega
    rw [List.getElem?_append, if_neg (by simp [htake]; omega)]
    rw [List.getElem?_drop]
    have : (w.take i ++ [c]).length = i + 1 := by simp [htake]
    rw [this]
    congr 1
    omega

theorem mem_trieGenerateAddedLetters {trie : Trie} {w cand : W}
    (h : cand ∈ trieGenerateAddedLetters trie w) :
    ∃ i, i ≤ w.length ∧ ∃ c, cand = w.take i ++ [c] ++ w.drop i := by
  simp only [trieGenerateAddedLetters, List.mem_flatMap, List.mem_range] at h
  obtain ⟨i, hi, hmem⟩ := h
  rcases hfn : findNode trie (w.take i) with _ | node
  · rw [hfn] at hmem
    simp at hmem
  · rw [hfn] at hmem
    simp only [List.mem_filterMap] at hmem
    obtain ⟨c, -, hc⟩ := hmem
    refine ⟨i, by omega, c, ?_⟩
    split at hc
    · split at hc
      · exact (Option.some.inj hc).symm
      · exact absurd hc (by simp)
    · exact absurd hc (by simp)

theorem mem_trieGenerateRemovedLetters {trie : Trie} {w cand : W}
    (h : cand ∈ trieGenerateRemovedLetters trie w) :
    ∃ i, i < w.length ∧ cand = w.take i ++ w.drop (i + 1) := by
  simp only [trieGenerateRemovedLetters, List.mem_filterMap,
    List.mem_range] at h
  obtain ⟨i, hi, hc⟩ := h
  refine ⟨i, hi, ?_⟩
  split at hc
  · exact (Option.some.inj hc).symm
  · exact absurd hc (by simp)

theorem mem_trieGenerateChangedLetters {trie : Trie} {w cand : W}
    (h : cand ∈ trieGenerateChangedLetters trie w) :
    ∃ i, i < w.length ∧ ∃ c, c ≠ w.getD i ' ' ∧
      cand = w.take i ++ [c] ++ w.drop (i + 1) := by
  simp only [trieGenerateChangedLetters, List.mem_flatMap,
    List.mem_range] at h
  obtain ⟨i, hi, hmem⟩ := h
  rcases hfn : findNode trie (w.take i) with _ | node
  · rw [hfn] at hmem
    simp at hmem
  · rw [hfn] at hmem
    simp only [List.mem_filterMap] at hmem
    obtain ⟨c, -, hc⟩ := hmem
    by_cases h1 : c ≠ w.getD i ' ' ∧ (childLookup node.children c).isSome
    · rw [if_pos h1] at hc
      refine ⟨i, hi, c, h1.1, ?_⟩
      split at hc
      · exact (Option.some.inj hc).symm
      · exact absurd hc (by simp)
    · rw [if_neg h1] at hc
      exact absurd hc (by simp)

/-- C8 (confirmed). Every candidate the engine emits into a
one-letter-off bucket differs from the anchor by exactly one edit of the
bucket's kind: added candidates are the anchor with one letter inserted
(length |w|+1), removed candidates are the anchor with one letter deleted
(length |w|-1), changed candidates are the anchor with exactly the letter
at one position replaced by a different letter (same length). -/
theorem olo_candidates_edit_distance_one (trie : Trie) (qw : List W)
    (w : W) :
    (∀ cand ∈ (getOneLetterOff trie qw w).added,
      ∃ i, i ≤ w.length ∧ ∃ c, cand = w.take i ++ [c] ++ w.drop i ∧
        cand.length = w.length + 1) ∧
    (∀ cand ∈ (getOneLetterOff trie qw w).removed,
      ∃ i, i < w.length ∧ cand = w.take i ++ w.drop (i + 1) ∧
        cand.length + 1 = w.length) ∧
    (∀ cand ∈ (getOneLetterOff trie qw w).changed,
      ∃ i, i < w.length ∧ ∃ c, c ≠ w.getD i ' ' ∧
        cand = w.take i ++ [c] ++ w.drop (i + 1) ∧
        cand.length = w.length) := by
  refine ⟨?_, ?_, ?_⟩
  · intro cand hcand
    have hgen := (List.mem_filter.mp hcand).1
    obtain ⟨i, hi, c, hshape⟩ := mem_trieGenerateAddedLetters hgen
    exact ⟨i, hi, c, hshape, by rw [hshape]; exact insertAt_length w i c hi⟩
  · intro cand hcand
    have hgen := (List.mem_filter.mp hcand).1
    obtain ⟨i, hi, hshape⟩ := mem_trieGenerateRemovedLetters hgen
    exact ⟨i, hi, hshape, by rw [hshape]; exact removeAt_length w i hi⟩
  · intro cand hcand
    have hgen := (List.mem_filter.mp hcand).1
    obtain ⟨i, hi, c, hne, hshape⟩ := mem_trieGenerateChangedLetters hgen
    exact ⟨i, hi, c, hne, hshape,
      by rw [hshape]; exact replaceAt_length w i c hi⟩

/-- Witness for olo_candidates_edit_distance_one at a concrete input. -/
theorem olo_candidates_edit_distance_one_witness :
    ("pen".toList ∈ (getOneLetterOff (buildTrie ["pen".toList,
        "peen".toList]) ["pen".toList, "peen".toList]
        "peen".toList).removed) ∧
      (∃ i, i < "peen".toList.length ∧
        "pen".toList = "peen".toList.take i ++ "peen".toList.drop (i + 1) ∧
        "pen".toList.length + 1 = "peen".toList.length) :=
  ⟨by decide,
    (olo_candidates_edit_distance_one (buildTrie ["pen".toList,
        "peen".toList]) ["pen".toList, "peen".toList]
        "peen".toList).2.1 "pen".toList (by decide)⟩

/-! ## Duplicate-freeness and anchor exclusion (claim C6) -/

theorem getD_eq_getElem (w : W) (j : Nat) (hj : j < w.length) :
    w.getD j ' ' = w[j] := by
  rw [List.getD_eq_getElem?_getD, List.getElem?_eq_getElem hj]
  rfl

/-- Membership in the per-position changed-letter candidate list forces
the replacement shape. -/
theorem mem_changedAt {trie : Trie} {w : W} {i : Nat} {cand : W}
    (h : cand ∈ (match findNode trie (w.take i) with
      | none => ([] : List W)
      | some node => alphabet.filterMap fun c =>
          if c ≠ w.getD i ' ' ∧ (childLookup node.children c).isSome then
            if containsWord trie (w.take i ++ [c] ++ w.drop (i + 1)) then
              some (w.take i ++ [c] ++ w.drop (i + 1))
            else none
          else none)) :
    ∃ c, c ≠ w.getD i ' ' ∧ cand = w.take i ++ [c] ++ w.drop (i + 1) := by
  rcases hfn : findNode trie (w.take i) with _ | node
  · rw [hfn] at h
    simp at h
  · rw [hfn] at h
    simp only [List.mem_filterMap] at h
    obtain ⟨c, -, hc⟩ := h
    by_cases h1 : c ≠ w.getD i ' ' ∧ (childLookup node.children c).isSome
    · rw [if_pos h1] at hc
      refine ⟨c, h1.1, ?_⟩
      split at hc
      · exact (Option.some.inj hc).symm
      · exact absurd hc (by simp)
    · rw [if_neg h1] at hc
      exact absurd hc (by simp)

theorem trieGenerateChangedLetters_nodup (trie : Trie) (w : W) :
    (trieGenerateChangedLetters trie w).Nodup := by
  rw [trieGenerateChangedLetters, List.nodup_flatMap]
  constructor
  · intro i hi
    have hiw : i < w.length := List.mem_range.mp hi
    rcases hfn : findNode trie (w.take i) with _ | node
    · simp [hfn]
    · simp only [hfn]
      refine List.Nodup.filterMap ?_ (by decide)
      intro a a' b hba hba'
      have ha : b = w.take i ++ [a] ++ w.drop (i + 1) := by
        by_cases h1 : a ≠ w.getD i ' ' ∧ (childLookup node.children a).isSome
        · rw [if_pos h1] at hba
          split at hba
          · exact (Option.some.inj hba).symm
          · exact absurd hba (by simp)
        · rw [if_neg h1] at hba
          exact absurd hba (by simp)
      have ha' : b = w.take i ++ [a'] ++ w.drop (i + 1) := by
        by_cases h1 : a' ≠ w.getD i ' ' ∧ (childLookup node.children a').isSome
        · rw [if_pos h1] at hba'
          split at hba'
          · exact (Option.some.inj hba').symm
          · exact absurd hba' (by simp)
        · rw [if_neg h1] at hba'
          exact absurd hba' (by simp)
      have hga : b[i]? = some a := by
        rw [ha]; exact replaceAt_getElem_self w i a hiw
      have hga' : b[i]? = some a' := by
        rw [ha']; exact replaceAt_getElem_self w i a' hiw
      exact Option.some.inj (hga.symm.trans hga')
  · have hpw := (List.Pairwise.and_mem).mp (List.pairwise_lt_range w.length)
    refine hpw.imp ?_
    rintro i j ⟨hi, hj, hij⟩ cand hci hcj
    have hiw : i < w.length := List.mem_range.mp hi
    have hjw : j < w.length := List.mem_range.mp hj
    obtain ⟨c, hcne, hcshape⟩ := mem_changedAt hci
    obtain ⟨c', hcne', hcshape'⟩ := mem_changedAt hcj
    have h1 : cand[j]? = w[j]? := by
      rw [hcshape]
      exact replaceAt_getElem_ne w i j c (by omega) hiw
    have h2 : cand[j]? = some c' := by
      rw [hcshape']
      exact replaceAt_getElem_self w j c' hjw
    have h3 : w[j]? = some (w.getD j ' ') := by
      rw [List.getElem?_eq_getElem hjw, getD_eq_getElem w j hjw]
    rw [h1, h3] at h2
    exact hcne' (Option.some.inj h2).symm

/-- Invariant carried through the categorisation fold: the four buckets
are duplicate-free and drawn from the rhyme-candidate list. -/
def BucketsInv (rhymes : List W) (b : RhymeBuckets) : Prop :=
  (b.perfect.Nodup ∧ b.near.Nodup ∧ b.rich.Nodup ∧ b.slant.Nodup) ∧
    ((∀ x ∈ b.perfect, x ∈ rhymes) ∧ (∀ x ∈ b.near, x ∈ rhymes) ∧
      (∀ x ∈ b.rich, x ∈ rhymes) ∧ (∀ x ∈ b.slant, x ∈ rhymes))

theorem addIfNew_nodup {l : List W} {x : W} (h : l.Nodup) :
    (addIfNew l x).Nodup := by
  unfold addIfNew
  split
  · exact h
  · rename_i hx
    rw [List.nodup_append]
    refine ⟨h, List.nodup_singleton x, ?_⟩
    intro a ha hax
    simp only [List.mem_singleton] at hax
    exact hx (hax ▸ ha)

theorem addIfNew_mem {l : List W} {x y : W} (h : y ∈ addIfNew l x) :
    y ∈ l ∨ y = x := by
  unfold addIfNew at h
  split at h
  · exact Or.inl h
  · rcases List.mem_append.mp h with h | h
    · exact Or.inl h
    · simp only [List.mem_singleton] at h
      exact Or.inr h

theorem categorizeStep_inv {pron : Pron} {word : W} {rhymes : List W}
    {b : RhymeBuckets} {wp : String} {rhyme : W} {rp : String}
    (hb : BucketsInv rhymes b) (hr : rhyme ∈ rhymes) :
    BucketsInv rhymes (categorizeStep pron word b wp rhyme rp) := by
  obtain ⟨⟨n1, n2, n3, n4⟩, s1, s2, s3, s4⟩ := hb
  unfold categorizeStep
  split
  · exact ⟨⟨addIfNew_nodup n1, n2, n3, n4⟩,
      fun x hx => (addIfNew_mem hx).elim (s1 x)
        (fun h => by rw [h]; exact hr), s2, s3, s4⟩
  · split
    · exact ⟨⟨n1, n2, addIfNew_nodup n3, n4⟩,
        s1, s2, fun x hx => (addIfNew_mem hx).elim (s3 x)
          (fun h => by rw [h]; exact hr), s4⟩
    · split
      · exact ⟨⟨n1, n2, n3, addIfNew_nodup n4⟩,
          s1, s2, s3, fun x hx => (addIfNew_mem hx).elim (s4 x)
            (fun h => by rw [h]; exact hr)⟩
      · split
        · exact ⟨⟨n1, addIfNew_nodup n2, n3, n4⟩,
            s1, fun x hx => (addIfNew_mem hx).elim (s2 x)
              (fun h => by rw [h]; exact hr), s3, s4⟩
        · exact ⟨⟨n1, n2, n3, n4⟩, s1, s2, s3, s4⟩

theorem foldl_categorize_inv (pron : Pron) (word : W) (rhymes : List W) :
    ∀ (triples : List (String × W × String)) (b : RhymeBuckets),
      (∀ x ∈ triples, x.2.1 ∈ rhymes) → BucketsInv rhymes b →
      BucketsInv rhymes (triples.foldl
        (fun b x => categorizeStep pron word b x.1 x.2.1 x.2.2) b) := by
  intro triples
  induction triples with
  | nil => exact fun b _ hb => hb
  | cons t rest ih =>
    intro b htr hb
    simp only [List.foldl_cons]
    exact ih _ (fun x hx => htr x (List.mem_cons_of_mem _ hx))
      (categorizeStep_inv hb (htr t (by simp)))

theorem categorize_buckets_inv (pron : Pron) (word : W)
    (rhymes : List W) :
    BucketsInv rhymes (categorizeRhymesByQuality pron word rhymes) := by
  unfold categorizeRhymesByQuality
  split
  · exact ⟨⟨List.nodup_nil, List.nodup_nil, List.nodup_nil,
      List.nodup_nil⟩, by simp, by simp, by simp, by simp⟩
  · refine foldl_categorize_inv pron word rhymes _ _ ?_
      ⟨⟨List.nodup_nil, List.nodup_nil, List.nodup_nil,
        List.nodup_nil⟩, by simp, by simp, by simp, by simp⟩
    intro x hx
    simp only [List.mem_flatMap, List.mem_map] at hx
    obtain ⟨wp, -, r, hr, rp, -, rfl⟩ := hx
    exact hr

theorem not_mem_findComprehensiveRhymes (pron : Pron) (qw : List W)
    (word : W) : word ∉ findComprehensiveRhymes pron qw word := by
  unfold findComprehensiveRhymes
  split
  · simp
  · intro h
    have h2 := (List.mem_filter.mp h).2
    simp at h2

/-- C6 (corrected). For every anchor: the anagram list (with a
duplicate-free stored group), the changed-letter list, and the four rhyme
lists contain no duplicate words, and no per-category list ever contains
the anchor itself; the added and removed lists, however, are not
deduplicated by the engine (see the counterexample). -/
theorem transformation_lists_nodup_and_anchor_free (pron : Pron)
    (anaIndex : List (Nat × List W)) (trie : Trie) (qw : List W) (w : W)
    (hgroups : ∀ g ∈ anaIndex, (g.2 : List W).Nodup) :
    ((getAnagrams anaIndex w).Nodup ∧ w ∉ getAnagrams anaIndex w) ∧
      ((getOneLetterOff trie qw w).changed.Nodup ∧
        w ∉ (getOneLetterOff trie qw w).added ∧
        w ∉ (getOneLetterOff trie qw w).removed ∧
        w ∉ (getOneLetterOff trie qw w).changed) ∧
      ((categorizeRhymesByQuality pron w
          (findComprehensiveRhymes pron qw w)).perfect.Nodup ∧
        (categorizeRhymesByQuality pron w
          (findComprehensiveRhymes pron qw w)).near.Nodup ∧
        (categorizeRhymesByQuality pron w
          (findComprehensiveRhymes pron qw w)).rich.Nodup ∧
        (categorizeRhymesByQuality pron w
          (findComprehensiveRhymes pron qw w)).slant.Nodup ∧
        w ∉ (categorizeRhymesByQuality pron w
          (findComprehensiveRhymes pron qw w)).perfect ∧
        w ∉ (categorizeRhymesByQuality pron w
          (findComprehensiveRhymes pron qw w)).near ∧
        w ∉ (categorizeRhymesByQuality pron w
          (findComprehensiveRhymes pron qw w)).rich ∧
        w ∉ (categorizeRhymesByQuality pron w
          (findComprehensiveRhymes pron qw w)).slant) := by
  refine ⟨⟨?_, ?_⟩, ⟨?_, ?_, ?_, ?_⟩, ?_⟩
  · unfold getAnagrams
    split
    · simp
    · rename_i g hg
      exact (hgroups g (List.mem_of_find?_eq_some hg)).filter _
  · unfold getAnagrams
    split
    · simp
    · intro h
      have h2 := (List.mem_filter.mp h).2
      simp at h2
  · exact (trieGenerateChangedLetters_nodup trie w).filter _
  · intro h
    have h2 := (List.mem_filter.mp h).2
    simp at h2
  · intro h
    have hgen := (List.mem_filter.mp h).1
    obtain ⟨i, hi, hshape⟩ := mem_trieGenerateRemovedLetters hgen
    have hlen : w.length + 1 = w.length := by
      conv_lhs => rw [hshape]
      exact removeAt_length w i hi
    omega
  · intro h
    have hgen := (List.mem_filter.mp h).1
    obtain ⟨i, hi, c, hcne, hshape⟩ := mem_trieGenerateChangedLetters hgen
    have h1 : w[i]? = some c := by
      conv_lhs => rw [hshape]
      exact replaceAt_getElem_self w i c hi
    have h2 : w[i]? = some (w.getD i ' ') := by
      rw [List.getElem?_eq_getElem hi, getD_eq_getElem w i hi]
    rw [h2] at h1
    exact hcne (Option.some.inj h1).symm
  · obtain ⟨⟨n1, n2, n3, n4⟩, s1, s2, s3, s4⟩ :=
      categorize_buckets_inv pron w (findComprehensiveRhymes pron qw w)
    have hw := not_mem_findComprehensiveRhymes pron qw w
    exact ⟨n1, n2, n3, n4,
      fun h => hw (s1 w h), fun h => hw (s2 w h),
      fun h => hw (s3 w h), fun h => hw (s4 w h)⟩

/-- Witness for transformation_lists_nodup_and_anchor_free at a concrete
input (the two-word lexicon pen, peen with anchor peen). -/
theorem transformation_lists_nodup_and_anchor_free_witness :
    (∀ g ∈ ([] : List (Nat × List W)), (g.2 : List W).Nodup) ∧
      (((getAnagrams [] "peen".toList).Nodup ∧
          "peen".toList ∉ getAnagrams [] "peen".toList) ∧
        ((getOneLetterOff (buildTrie ["pen".toList, "peen".toList])
            ["pen".toList, "peen".toList] "peen".toList).changed.Nodup ∧
          "peen".toList ∉ (getOneLetterOff (buildTrie ["pen".toList,
            "peen".toList]) ["pen".toList, "peen".toList]
            "peen".toList).added ∧
          "peen".toList ∉ (getOneLetterOff (buildTrie ["pen".toList,
            "peen".toList]) ["pen".toList, "peen".toList]
            "peen".toList).removed ∧
          "peen".toList ∉ (getOneLetterOff (buildTrie ["pen".toList,
            "peen".toList]) ["pen".toList, "peen".toList]
            "peen".toList).changed) ∧
        ((categorizeRhymesByQuality (fun _ => []) "peen".toList
            (findComprehensiveRhymes (fun _ => [])
              ["pen".toList, "peen".toList]
              "peen".toList)).perfect.Nodup ∧
          (categorizeRhymesByQuality (fun _ => []) "peen".toList
            (findComprehensiveRhymes (fun _ => [])
              ["pen".toList, "peen".toList] "peen".toList)).near.Nodup ∧
          (categorizeRhymesByQuality (fun _ => []) "peen".toList
            (findComprehensiveRhymes (fun _ => [])
              ["pen".toList, "peen".toList] "peen".toList)).rich.Nodup ∧
          (categorizeRhymesByQuality (fun _ => []) "peen".toList
            (findComprehensiveRhymes (fun _ => [])
              ["pen".toList, "peen".toList] "peen".toList)).slant.Nodup ∧
          "peen".toList ∉ (categorizeRhymesByQuality (fun _ => [])
            "peen".toList (findComprehensiveRhymes (fun _ => [])
              ["pen".toList, "peen".toList] "peen".toList)).perfect ∧
          "peen".toList ∉ (categorizeRhymesByQuality (fun _ => [])
            "peen".toList (findComprehensiveRhymes (fun _ => [])
              ["pen".toList, "peen".toList] "peen".toList)).near ∧
          "peen".toList ∉ (categorizeRhymesByQuality (fun _ => [])
            "peen".toList (findComprehensiveRhymes (fun _ => [])
              ["pen".toList, "peen".toList] "peen".toList)).rich ∧
          "peen".toList ∉ (categorizeRhymesByQuality (fun _ => [])
            "peen".toList (findComprehensiveRhymes (fun _ => [])
              ["pen".toList, "peen".toList] "peen".toList)).slant)) :=
  ⟨by simp,
    transformation_lists_nodup_and_anchor_free (fun _ => []) []
      (buildTrie ["pen".toList, "peen".toList])
      ["pen".toList, "peen".toList] "peen".toList (by simp)⟩

/-- Counterexample to C6 as stated: over the lexicon containing pen and
peen, the one-letter-removed list of the anchor peen is [pen, pen] — the
same word generated at two removal positions — so a per-category list can
contain duplicates. -/
theorem olo_removed_contains_duplicate_cex :
    (getOneLetterOff (buildTrie ["pen".toList, "peen".toList])
        ["pen".toList, "peen".toList] "peen".toList).removed =
      ["pen".toList, "pen".toList] ∧
      ¬ (getOneLetterOff (buildTrie ["pen".toList, "peen".toList])
        ["pen".toList, "peen".toList] "peen".toList).removed.Nodup := by
  exact ⟨by decide, by decide⟩

/-! ## Storage service (optimized_storage_service.py)

The fallible primitives (the Redis read, base64 decoding, the legacy
JSON value parse, hex decoding, and gzip-and-pickle deserialisation) are
modelled as oracles returning Except values; every Python try/except of
the service is translated into explicit handling of those values, so
get_probability_tree itself is a total function into Option. -/

abbrev Bytes := List Nat

structure StorageOps where
  redisGet : String → Except String (Option String)
  b64decode : String → Except String Bytes
  jsonLoads : String → Except String (Option String)
  fromHex : String → Except String Bytes
  deserialize : Bytes → Except String WordTree

structure StorageState where
  storageType : String
  jsonData : List (String × Option String)
  memoryCache : List (String × WordTree)

def redisKey (word : String) : String := "tree:" ++ word

/-- The new efficient format: base64-decode then _deserialize_tree; both
run inside one try, so either failure falls to the legacy path. -/
def newFormatE (ops : StorageOps) (s : String) : Except String WordTree :=
  match ops.b64decode s with
  | .error e => .error e
  | .ok b => ops.deserialize b

/-- The legacy Redis value: json.loads, the serialized key check, hex
decoding and deserialisation. jsonLoads errors are caught by the inner
except clause (JSONDecodeError/KeyError); a parsed object without the
serialized key simply skips the if block. fromHex (ValueError) and
deserialize errors are NOT in that except clause and propagate. The
result distinguishes caught-and-done (ok none), success (ok some) and a
propagating exception (error). -/
def legacyRedisE (ops : StorageOps) (s : String) :
    Except String (Option WordTree) :=
  match ops.jsonLoads s with
  | .error _ => .ok none
  | .ok none => .ok none
  | .ok (some hex) =>
    match ops.fromHex hex with
    | .error e => .error e
    | .ok b =>
      match ops.deserialize b with
      | .error e => .error e
      | .ok t => .ok (some t)

/-- The JSON-file lookup chain shared by the json mode and the hybrid
fallback: a missing anchor returns None; an entry without the serialized
key raises KeyError; fromHex and deserialize raise on failure. -/
def jsonLookupE (ops : StorageOps) (st : StorageState) (word : String) :
    Except String (Option WordTree) :=
  match st.jsonData.find? fun e => e.1 = word with
  | none => .ok none
  | some (_, none) => .error "KeyError"
  | some (_, some hex) =>
    match ops.fromHex hex with
    | .error e => .error e
    | .ok b =>
      match ops.deserialize b with
      | .error e => .error e
      | .ok t => .ok (some t)

/-- _get_from_storage before its outer try/except: redis mode reads only
Redis (legacy miss yields the trailing return None); hybrid mode tries
Redis and falls back to the JSON data on a Redis miss or a caught legacy
failure; json mode reads only the JSON data; any other storage type falls
through every elif and returns None. -/
def getFromStorageE (ops : StorageOps) (st : StorageState)
    (word : String) : Except String (Option WordTree) :=
  if st.storageType = "redis" then
    match ops.redisGet (redisKey word) with
    | .error e => .error e
    | .ok none => .ok none
    | .ok (some s) =>
      match newFormatE ops s with
      | .ok t => .ok (some t)
      | .error _ => legacyRedisE ops s
  else if st.storageType = "hybrid" then
    match ops.redisGet (redisKey word) with
    | .error e => .error e
    | .ok none => jsonLookupE ops st word
    | .ok (some s) =>
      match newFormatE ops s with
      | .ok t => .ok (some t)
      | .error _ =>
        match legacyRedisE ops s with
        | .ok (some t) => .ok (some t)
        | .ok none => jsonLookupE ops st word
        | .error e => .error e
  else if st.storageType = "json" then
    jsonLookupE ops st word
  else .ok none

/-- _get_from_storage: the outer try/except turns any propagating
exception into None. -/
def getFromStorage (ops : StorageOps) (st : StorageState)
    (word : String) : Option WordTree :=
  match getFromStorageE ops st word with
  | .ok r => r
  | .error _ => none

/-- get_probability_tree: memory-cache hit first, then the unified
retrieval (whose own try/except already yields None on failure; the
outer try/except of get_probability_tree and the cache insertion do not
change the returned value). -/
def getProbabilityTree (ops : StorageOps) (st : StorageState)
    (word : String) : Option WordTree :=
  match st.memoryCache.find? fun e => e.1 = word with
  | some e => some e.2
  | none => getFromStorage ops st word

/-- A Redis read that actually produces a tree, through either decode
path. -/
def RedisYields (ops : StorageOps) (word : String) (t : WordTree) : Prop :=
  ∃ s, ops.redisGet (redisKey word) = Except.ok (some s) ∧
    (newFormatE ops s = Except.ok t ∨
      ∃ hex b, ops.jsonLoads s = Except.ok (some hex) ∧
        ops.fromHex hex = Except.ok b ∧
        ops.deserialize b = Except.ok t)

/-- A JSON-file lookup that actually produces a tree. -/
def JsonYields (ops : StorageOps) (st : StorageState) (word : String)
    (t : WordTree) : Prop :=
  ∃ k hex b, (st.jsonData.find? fun e => e.1 = word) = some (k, some hex) ∧
    ops.fromHex hex = Except.ok b ∧ ops.deserialize b = Except.ok t

/-- C10 (confirmed). get_probability_tree is total (it returns an Option,
never letting a storage exception escape: every fallible primitive's
error is handled above), and whenever the memory cache misses and neither
the Redis chain nor the JSON chain actually produces a tree — covering a
missing tree as well as failures in the Redis read, base64 decode, legacy
parse, hex decode, decompression or deserialisation — it returns None. -/
theorem get_probability_tree_none_on_failure (ops : StorageOps)
    (st : StorageState) (word : String)
    (hcache : (st.memoryCache.find? fun e => e.1 = word) = none)
    (hredis : ∀ t, ¬ RedisYields ops word t)
    (hjson : ∀ t, ¬ JsonYields ops st word t) :
    getProbabilityTree ops st word = none := by
  have hjsonE : ∀ r, jsonLookupE ops st word = Except.ok r → r = none := by
    intro r hr
    unfold jsonLookupE at hr
    split at hr
    · exact (Except.ok.inj hr).symm
    · exact absurd hr (by simp)
    · rename_i fst hex hfind
      split at hr
      · exact absurd hr (by simp)
      · rename_i b hhex
        split at hr
        · exact absurd hr (by simp)
        · rename_i t hdes
          have hfind2 : (st.jsonData.find? fun e => e.1 = word) =
              some (fst, some hex) := hfind
          exact absurd ⟨fst, hex, b, hfind2, hhex, hdes⟩ (hjson t)
  have hredisNew : ∀ s t, ops.redisGet (redisKey word) =
      Except.ok (some s) → newFormatE ops s ≠ Except.ok t := by
    intro s t hget hnew
    exact hredis t ⟨s, hget, Or.inl hnew⟩
  have hredisLeg : ∀ s r, ops.redisGet (redisKey word) =
      Except.ok (some s) → legacyRedisE ops s = Except.ok r → r = none := by
    intro s r hget hleg
    unfold legacyRedisE at hleg
    split at hleg
    · exact (Except.ok.inj hleg).symm
    · exact (Except.ok.inj hleg).symm
    · rename_i hex hjl
      split at hleg
      · exact absurd hleg (by simp)
      · rename_i b hhex
        split at hleg
        · exact absurd hleg (by simp)
        · rename_i t hdes
          exact absurd ⟨s, hget, Or.inr ⟨hex, b, hjl, hhex, hdes⟩⟩
            (hredis t)
  have hE : ∀ r, getFromStorageE ops st word = Except.ok r → r = none := by
    intro r hr
    unfold getFromStorageE at hr
    by_cases h1 : st.storageType = "redis"
    · rw [if_pos h1] at hr
      split at hr
      · exact absurd hr (by simp)
      · exact (Except.ok.inj hr).symm
      · rename_i s hget
        split at hr
        · rename_i t hnew
          exact absurd hnew (hredisNew s t hget)
        · exact hredisLeg s r hget hr
    · rw [if_neg h1] at hr
      by_cases h2 : st.storageType = "hybrid"
      · rw [if_pos h2] at hr
        split at hr
        · exact absurd hr (by simp)
        · exact hjsonE r hr
        · rename_i s hget
          split at hr
          · rename_i t hnew
            exact absurd hnew (hredisNew s t hget)
          · rename_i e hnew
            split at hr
            · rename_i t hleg
              have hcontra := hredisLeg s (some t) hget hleg
              simp at hcontra
            · exact hjsonE r hr
            · exact absurd hr (by simp)
      · rw [if_neg h2] at hr
        by_cases h3 : st.storageType = "json"
        · rw [if_pos h3] at hr
          exact hjsonE r hr
        · rw [if_neg h3] at hr
          exact (Except.ok.inj hr).symm
  unfold getProbabilityTree
  rw [hcache]
  show (match getFromStorageE ops st word with
    | Except.ok r => r
    | Except.error _ => none) = none
  split
  · rename_i r hr
    exact hE r hr
  · rfl

/-- Witness for get_probability_tree_none_on_failure: a hybrid store
whose Redis connection raises on every read, with an empty JSON file and
an empty memory cache. -/
theorem get_probability_tree_none_on_failure_witness :
    (((⟨"hybrid", [], []⟩ : StorageState).memoryCache.find?
          fun e => e.1 = "cat") = none ∧
        (∀ t, ¬ RedisYields
          ⟨fun _ => Except.error "connection refused",
            fun _ => Except.error "bad base64",
            fun _ => Except.error "bad json",
            fun _ => Except.error "bad hex",
            fun _ => Except.error "bad pickle"⟩ "cat" t) ∧
        (∀ t, ¬ JsonYields
          ⟨fun _ => Except.error "connection refused",
            fun _ => Except.error "bad base64",
            fun _ => Except.error "bad json",
            fun _ => Except.error "bad hex",
            fun _ => Except.error "bad pickle"⟩
          ⟨"hybrid", [], []⟩ "cat" t)) ∧
      getProbabilityTree
        ⟨fun _ => Except.error "connection refused",
          fun _ => Except.error "bad base64",
          fun _ => Except.error "bad json",
          fun _ => Except.error "bad hex",
          fun _ => Except.error "bad pickle"⟩
        ⟨"hybrid", [], []⟩ "cat" = none :=
  ⟨⟨rfl, fun t ht => by
      obtain ⟨s, hs, -⟩ := ht
      exact absurd hs (by simp),
    fun t ht => by
      obtain ⟨k, hex, b, hfind, -⟩ := ht
      exact absurd hfind (by simp)⟩,
    get_probability_tree_none_on_failure _ _ "cat" rfl
      (fun t ht => by
        obtain ⟨s, hs, -⟩ := ht
        exact absurd hs (by simp))
      (fun t ht => by
        obtain ⟨k, hex, b, hfind, -⟩ := ht
        exact absurd hfind (by simp))⟩

end Wurdo
